import Mathlib

/-!
Verification of the slot-resolution / prop-merging core of the
`react-slottable` library.

The development shallowly embeds the runtime core of the library:

* `clsx.ts` — the class-list concatenator (`concat`, `castValue`, `clsx`);
* `merge-props.ts` — the deep prop merger (`isPlainObject`, `mergeProps`),
  modelled over a JavaScript value tree with explicit object identities, a
  fresh-identity counter for `structuredClone`, and an explicit fuel
  parameter for the non-structural recursion of the source;
* `use-slot.tsx` — the Shape A slot resolver (`useSlot`, `SlotFragment`),
  including the spread-merge of wrapped props, slot-prop overrides and the
  extra fixed props of the options object;
* the pair-returning Shape B resolver (`resolveComponentElement`).

Definitions mirror the TypeScript source; theorems settle the frozen claims.
-/

set_option maxHeartbeats 1000000

namespace ReactSlottable

/-! ### JavaScript numbers, as far as `clsx` observes them

`clsx` only observes a number through its truthiness (`0`, `-0` and `NaN`
are falsy) and its template-string rendering.  `-0` renders as `"0"` and is
identified with `int 0`.
-/

inductive JNum where
  | int (i : Int)
  | nan
  | inf
  | negInf
deriving DecidableEq, Repr

/-- JavaScript truthiness of a number: `0`, `-0` and `NaN` are falsy. -/
def JNum.truthy : JNum → Bool
  | .int i => i != 0
  | .nan => false
  | .inf => true
  | .negInf => true

/-- JavaScript template-string rendering of a number. -/
def JNum.toStr : JNum → String
  | .int i => toString i
  | .nan => "NaN"
  | .inf => "Infinity"
  | .negInf => "-Infinity"

/-! ### The `TClassValue` input type of `clsx`

`TClassValue = TClassArray | TClassMap | string | number | boolean | null
| undefined`, with `TClassMap = Record<string, unknown>`.  A map value is
only ever inspected for truthiness, so it is embedded as either a function
reference or a nested class value.
-/

mutual
inductive ClassValue where
  | str (s : String)
  | num (n : JNum)
  | bool (b : Bool)
  | null
  | undef
  | arr (xs : List ClassValue)
  | map (kvs : List (String × MapVal))

inductive MapVal where
  | fnv (id : Nat)
  | cv (v : ClassValue)
end

/-- JavaScript truthiness of a `TClassValue`.  Arrays and maps (objects) are
always truthy, even when empty. -/
def truthyCV : ClassValue → Bool
  | .str s => s != ""
  | .num n => n.truthy
  | .bool b => b
  | .null => false
  | .undef => false
  | .arr _ => true
  | .map _ => true

/-- JavaScript truthiness of a map value: functions are truthy, everything
else is judged as a class value. -/
def truthyMV : MapVal → Bool
  | .fnv _ => true
  | .cv v => truthyCV v

/-- `concat(a, b) = [a, b].filter(Boolean).join(" ")` from `clsx.ts`:
empty contributions are filtered out before joining. -/
def concat (a b : String) : String :=
  if a == "" then b else if b == "" then a else a ++ " " ++ b

/-- The value of `clsx(className)` for a single string `className`, as used
in the map branch of `castValue`: a falsy (empty) string contributes
nothing, a truthy string is returned unchanged.  `clsxKey_eq_clsx_single`
below proves this equal to the `clsx` call in the source. -/
def clsxKey (k : String) : String :=
  if k == "" then "" else k

/-- The `for (let className in input)` loop of `castValue`'s object branch:
keys with truthy associated values contribute `clsx(className)`, collected
with `concat` into the accumulator `res` in iteration order.  The value is
only inspected for truthiness and in particular is never invoked. -/
def castMapLoop : List (String × MapVal) → String → String
  | [], res => res
  | (k, v) :: rest, res =>
      castMapLoop rest (if truthyMV v then concat res (clsxKey k) else res)

mutual
/-- `castValue` from `clsx.ts`: strings and numbers render textually,
arrays recurse through `clsx`, objects run the key loop (`typeof null`
is `"object"`, so `null` takes the empty loop and yields `""`), and the
remaining cases (booleans, `undefined`) yield `""`. -/
def castValue : ClassValue → String
  | .str s => s
  | .num n => n.toStr
  | .arr xs => clsxFold "" xs
  | .map kvs => castMapLoop kvs ""
  | .null => castMapLoop [] ""
  | .bool _ => ""
  | .undef => ""

/-- The `inputs.reduce` loop of `clsx`: falsy inputs are skipped outright,
truthy inputs contribute `castValue input`, joined by `concat`. -/
def clsxFold : String → List ClassValue → String
  | acc, [] => acc
  | acc, input :: rest =>
      clsxFold (if truthyCV input then concat acc (castValue input) else acc) rest
end

/-- `clsx(...inputs)` from `clsx.ts`. -/
def clsx (inputs : List ClassValue) : String :=
  clsxFold "" inputs

/-! ### Well-spacedness of the output, for the spacing claim -/

/-- No two consecutive spaces occur in the character list. -/
def noDoubleSpace : List Char → Bool
  | c₁ :: c₂ :: rest => !(c₁ == ' ' && c₂ == ' ') && noDoubleSpace (c₂ :: rest)
  | _ => true

/-- The claimed spacing property of a `clsx` result: no leading space, no
trailing space, and no two consecutive spaces. -/
def spacedOK (s : String) : Bool :=
  s.data.head? != some ' ' && s.data.getLast? != some ' ' && noDoubleSpace s.data

/-- A string that contains no space character at all. -/
def noSpaceStr (s : String) : Bool :=
  s.data.all (· != ' ')

mutual
/-- The string atoms of a class value contain no space character: string
inputs themselves, elements of nested arrays, and the keys of maps (map
values are only inspected for truthiness and never stringified). -/
def spaceFreeCV : ClassValue → Bool
  | .str s => noSpaceStr s
  | .num _ => true
  | .bool _ => true
  | .null => true
  | .undef => true
  | .arr xs => spaceFreeList xs
  | .map kvs => spaceFreeKeys kvs

/-- Every element of the list is space-free. -/
def spaceFreeList : List ClassValue → Bool
  | [] => true
  | x :: rest => spaceFreeCV x && spaceFreeList rest

/-- Every key of the map is space-free. -/
def spaceFreeKeys : List (String × MapVal) → Bool
  | [] => true
  | (k, _) :: rest => noSpaceStr k && spaceFreeKeys rest
end

/-! ### JavaScript values for the deep prop merger

`mergeProps` receives `Record<string, any>` maps.  Values are embedded as
finite trees; every node with JavaScript object identity (functions,
arrays, plain objects, dates, regexes) carries an identity tag, so that
"stored by reference" versus "stored as a deep clone" is observable:
`structuredClone` re-creates nodes with fresh identities drawn from a
counter. -/

inductive Value where
  | vStr (s : String)
  | vNum (i : Int)
  | vBool (b : Bool)
  | vNull
  | vUndefined
  | vFn (id : Nat)
  | vArr (id : Nat) (elems : List Value)
  | vObj (id : Nat) (kvs : List (String × Value))
  | vDate (id : Nat) (t : Int)
  | vRegex (id : Nat) (src : String)

/-- `typeof v === "object"`: true for `null`, arrays, plain objects, dates
and regexes; false for strings, numbers, booleans, `undefined` and
functions (`typeof f === "function"`). -/
def typeofObject : Value → Bool
  | .vNull => true
  | .vArr _ _ => true
  | .vObj _ _ => true
  | .vDate _ _ => true
  | .vRegex _ _ => true
  | _ => false

/-- `Array.isArray`. -/
def isArrayJS : Value → Bool
  | .vArr _ _ => true
  | _ => false

/-- `isPlainObject` from `merge-props.ts`: an object whose prototype chain
is plain and which carries no `Symbol.toStringTag` / `Symbol.iterator`.
Only plain-object nodes qualify; arrays carry `Symbol.iterator` and dates
and regexes have non-plain prototypes, and `null` fails the initial
`typeof`/null test. -/
def isPlainObject : Value → Bool
  | .vObj _ _ => true
  | _ => false

/-- `typeof v === "function"`. -/
def isFunctionJS : Value → Bool
  | .vFn _ => true
  | _ => false

/-- The guard of the `reduce` loop of `mergeProps`:
`typeof input !== "object" || Array.isArray(input)` makes the input
contribute nothing. -/
def skipInput (v : Value) : Bool :=
  !typeofObject v || isArrayJS v

/-- The own enumerable string-keyed properties enumerated by
`for (const prop in input)`: the entries of a plain object;
`null`, dates and regexes enumerate nothing. -/
def entriesOf : Value → List (String × Value)
  | .vObj _ kvs => kvs
  | _ => []

/-- Property read `kvs[k]`: an absent key reads as `undefined`. -/
def lookupJS (kvs : List (String × Value)) (k : String) : Value :=
  match kvs.find? (fun p => p.1 == k) with
  | some p => p.2
  | none => .vUndefined

/-- `Object.hasOwn(kvs, k)`: own-presence of a key. -/
def hasKeyJS (kvs : List (String × Value)) (k : String) : Bool :=
  (kvs.find? (fun p => p.1 == k)).isSome

/-- Property assignment `acc[k] = v`: replaces the value in place when the
key exists, otherwise appends the new key at the end (JavaScript
insertion-order semantics). -/
def insertKV : List (String × Value) → String → Value → List (String × Value)
  | [], k, v => [(k, v)]
  | (k', v') :: rest, k, v =>
      if k' == k then (k, v) :: rest else (k', v') :: insertKV rest k v

mutual
/-- `structuredClone`, with an explicit fresh-identity counter `n`:
primitives are returned unchanged, arrays, plain objects, dates and
regexes are re-created with fresh identities, and a function anywhere in
the value raises `DataCloneError`, modelled as `none`. -/
def sclone (n : Nat) : Value → Option (Value × Nat)
  | .vStr s => some (.vStr s, n)
  | .vNum i => some (.vNum i, n)
  | .vBool b => some (.vBool b, n)
  | .vNull => some (.vNull, n)
  | .vUndefined => some (.vUndefined, n)
  | .vFn _ => none
  | .vArr _ xs =>
      match scloneList (n + 1) xs with
      | some (ys, n') => some (.vArr n ys, n')
      | none => none
  | .vObj _ kvs =>
      match scloneKVs (n + 1) kvs with
      | some (kvs', n') => some (.vObj n kvs', n')
      | none => none
  | .vDate _ t => some (.vDate n t, n + 1)
  | .vRegex _ src => some (.vRegex n src, n + 1)

/-- Clone of a list of array elements. -/
def scloneList (n : Nat) : List Value → Option (List Value × Nat)
  | [] => some ([], n)
  | x :: rest =>
      match sclone n x with
      | some (y, n') =>
          match scloneList n' rest with
          | some (ys, n'') => some (y :: ys, n'')
          | none => none
      | none => none

/-- Clone of a list of object entries. -/
def scloneKVs (n : Nat) : List (String × Value) → Option (List (String × Value) × Nat)
  | [] => some ([], n)
  | (k, v) :: rest =>
      match sclone n v with
      | some (w, n') =>
          match scloneKVs n' rest with
          | some (kvs', n'') => some ((k, w) :: kvs', n'')
          | none => none
      | none => none
end

/-- Result of the inner merging loops: accumulated entries plus identity
counter, a `DataCloneError`, or fuel exhaustion of the embedding. -/
inductive EStep where
  | ok (acc : List (String × Value)) (n : Nat)
  | err
  | fuel

/-- Result of `mergeProps`: the merged object plus identity counter, a
`DataCloneError`, or fuel exhaustion of the embedding. -/
inductive MRes where
  | ok (v : Value) (n : Nat)
  | err
  | fuel

mutual
/-- `mergeProps(...inputs)` from `merge-props.ts`.  The body at `f + 1`
first allocates the fresh `initial = {}` result object (this also covers
the `inputs.length === 0` early return, which likewise returns a fresh
empty object) and then runs the `reduce` loop.  The source recursion is
not structural (it recurses through accumulator values), so the embedding
carries a fuel parameter, decremented at every call; `mergeProps_total`
below proves that for every input in the documented domain some fuel
yields a stable non-fuel result. -/
def mergeProps : Nat → List Value → Nat → MRes
  | 0, _, _ => .fuel
  | f + 1, inputs, n =>
      match mergeInputs f [] inputs (n + 1) with
      | .ok kvs n' => .ok (.vObj n kvs) n'
      | .err => .err
      | .fuel => .fuel

/-- The `inputs.reduce((acc, input) => ...)` loop: inputs failing the
object guard are skipped, every other input has its enumerated entries
assigned into the accumulator. -/
def mergeInputs : Nat → List (String × Value) → List Value → Nat → EStep
  | 0, _, _, _ => .fuel
  | _ + 1, acc, [], n => .ok acc n
  | f + 1, acc, input :: rest, n =>
      if skipInput input then mergeInputs f acc rest n
      else
        match mergeEntries f acc (entriesOf input) n with
        | .ok acc' n' => mergeInputs f acc' rest n'
        | .err => .err
        | .fuel => .fuel

/-- The `for (const prop in input)` loop: a plain-object value is merged
recursively against the current accumulator value (`mergeProps(acc[prop],
input[prop])`), a function is assigned by reference, anything else is
assigned as a structured clone. -/
def mergeEntries : Nat → List (String × Value) → List (String × Value) → Nat → EStep
  | 0, _, _, _ => .fuel
  | _ + 1, acc, [], n => .ok acc n
  | f + 1, acc, (k, v) :: rest, n =>
      if isPlainObject v && !isArrayJS v then
        match mergeProps f [lookupJS acc k, v] n with
        | .ok w n' => mergeEntries f (insertKV acc k w) rest n'
        | .err => .err
        | .fuel => .fuel
      else if isFunctionJS v then
        mergeEntries f (insertKV acc k v) rest n
      else
        match sclone n v with
        | some (w, n') => mergeEntries f (insertKV acc k w) rest n'
        | none => .err
end

/-! ### Size measures used by the fuel-adequacy proof -/

mutual
/-- Size of a value as seen by the merge recursion: only plain-object
structure counts. -/
def vsize : Value → Nat
  | .vObj _ kvs => 1 + esize kvs
  | _ => 0

/-- Size of a list of object entries. -/
def esize : List (String × Value) → Nat
  | [] => 0
  | (_, v) :: rest => 1 + vsize v + esize rest
end

/-- Total size of an input list. -/
def vsizes : List Value → Nat
  | [] => 0
  | v :: rest => vsize v + vsizes rest

/-- Entry-size contributed by each input that passes the object guard. -/
def msize : List Value → Nat
  | [] => 0
  | v :: rest => (if skipInput v then 0 else esize (entriesOf v)) + msize rest

/-! ### Identity-erasure, identity collection, and domain predicates -/

mutual
/-- Erase all object identities (equality up to identity). -/
def strip : Value → Value
  | .vArr _ xs => .vArr 0 (stripList xs)
  | .vObj _ kvs => .vObj 0 (stripKVs kvs)
  | .vDate _ t => .vDate 0 t
  | .vRegex _ s => .vRegex 0 s
  | .vFn id => .vFn id
  | .vStr s => .vStr s
  | .vNum i => .vNum i
  | .vBool b => .vBool b
  | .vNull => .vNull
  | .vUndefined => .vUndefined

/-- Identity-erasure on array elements. -/
def stripList : List Value → List Value
  | [] => []
  | x :: rest => strip x :: stripList rest

/-- Identity-erasure on object entries. -/
def stripKVs : List (String × Value) → List (String × Value)
  | [] => []
  | (k, v) :: rest => (k, strip v) :: stripKVs rest
end

mutual
/-- All identity tags occurring in a value. -/
def idsOf : Value → List Nat
  | .vFn id => [id]
  | .vArr id xs => id :: idsOfList xs
  | .vObj id kvs => id :: idsOfKVs kvs
  | .vDate id _ => [id]
  | .vRegex id _ => [id]
  | _ => []

/-- Identity tags of array elements. -/
def idsOfList : List Value → List Nat
  | [] => []
  | x :: rest => idsOf x ++ idsOfList rest

/-- Identity tags of object entries. -/
def idsOfKVs : List (String × Value) → List Nat
  | [] => []
  | (_, v) :: rest => idsOf v ++ idsOfKVs rest
end

/-- Identity tags of a list of inputs. -/
def idsOfInputs : List Value → List Nat
  | [] => []
  | v :: rest => idsOf v ++ idsOfInputs rest

mutual
/-- Identity tags of the function values occurring in a value. -/
def fnIds : Value → List Nat
  | .vFn id => [id]
  | .vArr _ xs => fnIdsList xs
  | .vObj _ kvs => fnIdsKVs kvs
  | _ => []

/-- Function identity tags of array elements. -/
def fnIdsList : List Value → List Nat
  | [] => []
  | x :: rest => fnIds x ++ fnIdsList rest

/-- Function identity tags of object entries. -/
def fnIdsKVs : List (String × Value) → List Nat
  | [] => []
  | (_, v) :: rest => fnIds v ++ fnIdsKVs rest
end

/-- Function identity tags of a list of inputs. -/
def fnIdsInputs : List Value → List Nat
  | [] => []
  | v :: rest => fnIds v ++ fnIdsInputs rest

mutual
/-- No function value occurs anywhere in the value (the condition under
which `structuredClone` succeeds). -/
def fnFree : Value → Bool
  | .vFn _ => false
  | .vArr _ xs => fnFreeList xs
  | .vObj _ kvs => fnFreeKVs kvs
  | _ => true

/-- All array elements are function-free. -/
def fnFreeList : List Value → Bool
  | [] => true
  | x :: rest => fnFree x && fnFreeList rest

/-- All object entry values are function-free. -/
def fnFreeKVs : List (String × Value) → Bool
  | [] => true
  | (_, v) :: rest => fnFree v && fnFreeKVs rest
end

mutual
/-- Documented-domain predicate for a merged value: a function may appear
directly as a (possibly nested) plain-object entry value, but never
inside a value that `mergeProps` hands to `structuredClone` (such as an
array). -/
def domVal : Value → Bool
  | .vFn _ => true
  | .vObj _ kvs => domKVs kvs
  | .vArr _ xs => fnFreeList xs
  | _ => true

/-- Domain predicate on object entries. -/
def domKVs : List (String × Value) → Bool
  | [] => true
  | (_, v) :: rest => domVal v && domKVs rest
end

/-- Domain predicate for a top-level argument of `mergeProps`: arguments
skipped by the object guard are unconstrained (they are never cloned),
every other argument must enumerate domain values. -/
def domInput (v : Value) : Bool :=
  skipInput v || domKVs (entriesOf v)

/-- Domain predicate for the whole argument list. -/
def domInputs (inputs : List Value) : Bool :=
  inputs.all domInput

mutual
/-- Invariant of values stored in the merge accumulator: a function (kept
by reference), a recursively merged plain object, or a function-free
clone. -/
def mergedOK : Value → Bool
  | .vFn _ => true
  | .vObj _ kvs => mergedOKKVs kvs
  | .vArr _ xs => fnFreeList xs
  | _ => true

/-- Accumulator invariant on object entries. -/
def mergedOKKVs : List (String × Value) → Bool
  | [] => true
  | (_, v) :: rest => mergedOK v && mergedOKKVs rest
end

mutual
/-- Well-formedness of a JavaScript value: object entry lists have no
duplicate keys (runtime JavaScript objects cannot present the same own
key twice). -/
def wfVal : Value → Bool
  | .vObj _ kvs => wfKVs kvs
  | .vArr _ xs => wfList xs
  | _ => true

/-- Well-formedness of object entries: keys are pairwise distinct and
values are well-formed. -/
def wfKVs : List (String × Value) → Bool
  | [] => true
  | (k, v) :: rest => !hasKeyJS rest k && wfVal v && wfKVs rest

/-- Well-formedness of array elements. -/
def wfList : List Value → Bool
  | [] => true
  | x :: rest => wfVal x && wfList rest
end

/-- `v === null`. -/
def isNullJS : Value → Bool
  | .vNull => true
  | _ => false

/-- A top-level argument that actually contributes entries: a non-array
object other than `null` (the skipped kinds — `undefined`, numbers,
strings, booleans, functions, arrays — and the entry-less `null`
contribute no keys at all). -/
def keepInput (v : Value) : Bool :=
  !skipInput v && !isNullJS v

/-- Limit semantics of the fuel-indexed embedding: `mergeProps(...inputs)`
(started at identity counter `n`) terminates with the object `v` and final
counter `n'`.  By `mergeProps_mono`, the result is unique and stable under
additional fuel. -/
def MergesTo (inputs : List Value) (n : Nat) (v : Value) (n' : Nat) : Prop :=
  ∃ f, mergeProps f inputs n = .ok v n'

/-! ### Shape A: `use-slot.tsx` (`useSlot` hook with options, `SlotFragment`)

The hook resolves `Slot = slots?.[name] ?? slot ?? SlotFragment` and wraps
it in a component that renders `<Slot {...mergedProps} />` with
`mergedProps = { ...wrappedProps, ...slotProps?.[name], ...extraProps }`,
where the options argument is destructured as `{ slot, ...extraProps }`. -/

/-- A prop value of a slot component (a JSX attribute value). -/
inductive PropVal where
  | str (s : String)
  | num (i : Int)
  | pbool (b : Bool)
  | vNull
  | vUndefined
deriving Repr, DecidableEq

/-- A renderable: an element type passed as a component, or the
`SlotFragment` fallback component defined by `use-slot.tsx`. -/
inductive Renderable where
  | comp (id : Nat)
  | slotFragment
deriving Repr, DecidableEq

/-- Property read `ps[k]` on a props object (absent key reads as absent). -/
def lookupP (ps : List (String × PropVal)) (k : String) : Option PropVal :=
  (ps.find? (fun p => p.1 == k)).map Prod.snd

/-- Own-presence of a prop key. -/
def hasKeyP (ps : List (String × PropVal)) (k : String) : Bool :=
  (ps.find? (fun p => p.1 == k)).isSome

/-- Property assignment on a props object (in-place replace keeps the
original insertion position, as in JavaScript). -/
def insertP : List (String × PropVal) → String → PropVal → List (String × PropVal)
  | [], k, v => [(k, v)]
  | (k', v') :: rest, k, v =>
      if k' == k then (k, v) :: rest else (k', v') :: insertP rest k v

/-- Object spread `{ ...base, ...add }`: copies the own enumerable entries
of `add` over `base` in iteration order, later entries winning. -/
def spreadP (base add : List (String × PropVal)) : List (String × PropVal) :=
  add.foldl (fun acc p => insertP acc p.1 p.2) base

/-- A well-formed props object presents each own key once. -/
def wfProps : List (String × PropVal) → Bool
  | [] => true
  | (k, _) :: rest => !hasKeyP rest k && wfProps rest

/-- `slots?.[name]`: optional chaining through the optional override map
followed by an indexed read; absent map or absent entry give `undefined`. -/
def oLookupR (slots : Option (List (String × Renderable))) (name : String) :
    Option Renderable :=
  match slots with
  | none => none
  | some m => (m.find? (fun p => p.1 == name)).map Prod.snd

/-- `slotProps?.[name]`: optional chaining through the optional per-slot
prop override map. -/
def oLookupP (slotProps : Option (List (String × List (String × PropVal))))
    (name : String) : Option (List (String × PropVal)) :=
  match slotProps with
  | none => none
  | some m => (m.find? (fun p => p.1 == name)).map Prod.snd

/-- The `props` argument of `useSlot`: `SlotsProps & SlotPropsProps`, both
fields optional. -/
structure SlotsProps where
  slots : Option (List (String × Renderable))
  slotProps : Option (List (String × List (String × PropVal)))

/-- The `options` argument of `useSlot` after the destructuring
`{ slot, ...extraProps }`: the optional default renderable and every
remaining fixed prop. -/
structure SlotOptions where
  slot : Option Renderable
  extraProps : List (String × PropVal)

/-- The result of rendering the wrapped component once: either
`<Comp {...props} />` for a component override/default, or the fragment
`<>{children}</>` produced by `SlotFragment`. -/
inductive RenderResult where
  | element (id : Nat) (props : List (String × PropVal))
  | fragment (children : Option PropVal)
deriving Repr, DecidableEq

/-- `SlotFragment`: `({ children }) => <>{children}</>` — renders exactly
the `children` prop of the props it receives, and nothing else. -/
def SlotFragment (props : List (String × PropVal)) : RenderResult :=
  .fragment (lookupP props "children")

/-- Rendering `<Slot {...props} />` for a resolved renderable. -/
def renderSlot : Renderable → List (String × PropVal) → RenderResult
  | .comp id, props => .element id props
  | .slotFragment, props => SlotFragment props

/-- An empty render result: a fragment whose `children` prop is absent,
`undefined` or `null` renders nothing in React. -/
def rendersNothing : RenderResult → Bool
  | .fragment none => true
  | .fragment (some .vUndefined) => true
  | .fragment (some .vNull) => true
  | _ => false

/-- The first `useMemo` of `useSlot`:
`Slot = slots?.[name] ?? slot ?? SlotFragment`. -/
def resolveSlot (name : String) (props : SlotsProps) (options : SlotOptions) :
    Renderable :=
  match oLookupR props.slots name with
  | some r => r
  | none =>
    match options.slot with
    | some r => r
    | none => .slotFragment

/-- The merged props of the wrapped component:
`{ ...wrappedProps, ...slotProps?.[name], ...extraProps }` (spreading an
`undefined` slot-props entry contributes nothing). -/
def mergedSlotProps (name : String) (props : SlotsProps) (options : SlotOptions)
    (wrappedProps : List (String × PropVal)) : List (String × PropVal) :=
  match oLookupP props.slotProps name with
  | none => spreadP wrappedProps options.extraProps
  | some entry => spreadP (spreadP wrappedProps entry) options.extraProps

/-- `useSlot` composed with one invocation of the returned
`WrappedComponent`: resolve the slot, merge the props, render. -/
def useSlot (name : String) (props : SlotsProps) (options : SlotOptions)
    (wrappedProps : List (String × PropVal)) : RenderResult :=
  renderSlot (resolveSlot name props options)
    (mergedSlotProps name props options wrappedProps)

/-! ### Shape B: `part_005` (`resolveComponentElement`) -/

/-- A value found in the Shape B override positions (`inProps.component`
and `slots[name]`): a component, or a falsy non-component. -/
inductive BOverride where
  | comp (id : Nat)
  | vUndefined
  | vNull
  | vFalse
deriving Repr, DecidableEq

/-- JavaScript truthiness of a Shape B override value. -/
def truthyB : BOverride → Bool
  | .comp _ => true
  | _ => false

/-- `slots[name]` with JavaScript absent-key semantics (the destructuring
default `slots = { [name]: undefined }` makes the read total). -/
def blookup (slots : List (String × BOverride)) (name : String) : BOverride :=
  match slots.find? (fun p => p.1 == name) with
  | some p => p.2
  | none => .vUndefined

/-- `resolveComponentElement` from `part_005`:
`if (name === "root" && rootComponent) return rootComponent;
 if (slots[name]) return slots[name];
 return defaultComponent;`. -/
def resolveComponentElement (name : String) (rootComponent : BOverride)
    (slots : List (String × BOverride)) (defaultComponent : BOverride) :
    BOverride :=
  if name == "root" && truthyB rootComponent then rootComponent
  else if truthyB (blookup slots name) then blookup slots name
  else defaultComponent

/-! ## Theorems

Everything below this point is a lemma or a claim theorem; all definitions
of the embedding appear above. -/

lemma concat_empty_left (b : String) : concat "" b = b := by
  simp [concat]

/-- The helper `clsxKey` agrees with the `clsx(className)` call of the
source on every single string. -/
lemma clsxKey_eq_clsx_single (k : String) : clsxKey k = clsx [.str k] := by
  by_cases h : k = "" <;>
    simp [clsxKey, clsx, clsxFold, castValue, truthyCV, concat, h]

/-- The object-branch loop collects exactly the keys with truthy values,
in iteration order, folding them into the accumulator with `concat`. -/
lemma castMapLoop_eq (kvs : List (String × MapVal)) (res : String) :
    castMapLoop kvs res =
      ((kvs.filter fun p => truthyMV p.2).map fun p => clsxKey p.1).foldl concat res := by
  induction kvs generalizing res with
  | nil => rfl
  | cons p rest ih =>
    by_cases h : truthyMV p.2 = true <;>
      simp [castMapLoop, h, ih]

/-- C6: clsx map semantics.  For every map input, exactly the own
enumerable keys whose associated values are truthy contribute (each key
recursively processed as a single string input, `clsxKey k = clsx [k]`),
keys with falsy values are skipped, and the included keys are joined with
a single space in iteration order; the concrete example
`clsx {a: true, b: false, c: 0, d: null, e: undefined, f: 1}` yields
`"a f"`, and function values and empty-array values are truthy (the
result depends on a map value only through its truthiness, so the
function is never invoked). -/
theorem clsx_map_semantics :
    clsx [.map [("a", .cv (.bool true)), ("b", .cv (.bool false)),
                ("c", .cv (.num (.int 0))), ("d", .cv .null),
                ("e", .cv .undef), ("f", .cv (.num (.int 1)))]] = "a f"
    ∧ (∀ kvs : List (String × MapVal),
        castValue (.map kvs) =
          ((kvs.filter fun p => truthyMV p.2).map fun p => clsxKey p.1).foldl concat "")
    ∧ (∀ k : String, clsxKey k = clsx [.str k])
    ∧ (∀ id : Nat, truthyMV (.fnv id) = true)
    ∧ truthyMV (.cv (.arr [])) = true := by
  refine ⟨rfl, fun kvs => ?_, clsxKey_eq_clsx_single, fun _ => rfl, rfl⟩
  simp [castValue, castMapLoop_eq]

/-! ### Spacing lemmas for the clsx output -/

lemma noDoubleSpace_cons_of (c : Char) (l : List Char)
    (hc : (c = ' ' → l.head? ≠ some ' ')) (hl : noDoubleSpace l = true) :
    noDoubleSpace (c :: l) = true := by
  cases l with
  | nil => rfl
  | cons c₂ r =>
    simp only [noDoubleSpace, Bool.and_eq_true, Bool.not_eq_true'] at *
    refine ⟨?_, hl⟩
    by_cases h : c = ' '
    · have := hc h
      simp only [List.head?] at this
      simp [h]
      intro h2
      exact this (by rw [h2])
    · simp [h]

lemma noDoubleSpace_of_all (l : List Char) (h : ∀ c ∈ l, c ≠ ' ') :
    noDoubleSpace l = true := by
  induction l with
  | nil => rfl
  | cons c rest ih =>
    refine noDoubleSpace_cons_of c rest (fun hc => absurd hc (h c (by simp))) ?_
    exact ih fun c hc => h c (by simp [hc])

lemma spacedOK_of_noSpace (s : String) (h : noSpaceStr s = true) :
    spacedOK s = true := by
  simp only [noSpaceStr, List.all_eq_true, bne_iff_ne, ne_eq] at h
  simp only [spacedOK, Bool.and_eq_true, bne_iff_ne, ne_eq]
  refine ⟨⟨?_, ?_⟩, noDoubleSpace_of_all _ h⟩
  · intro he
    exact h ' ' (List.mem_of_mem_head? he) rfl
  · intro he
    exact h ' ' (List.mem_of_mem_getLast? he) rfl

lemma spacedOK_empty : spacedOK "" = true := rfl

lemma noDoubleSpace_append (a b : List Char)
    (ha : noDoubleSpace a = true) (hb : noDoubleSpace b = true)
    (hla : a.getLast? ≠ some ' ') (hhb : b.head? ≠ some ' ') :
    noDoubleSpace (a ++ ' ' :: b) = true := by
  induction a with
  | nil =>
    exact noDoubleSpace_cons_of ' ' b (fun _ => hhb) hb
  | cons c rest ih =>
    cases rest with
    | nil =>
      have hc : c ≠ ' ' := by
        intro h; exact hla (by simp [h])
      refine noDoubleSpace_cons_of c (' ' :: b) (fun h => absurd h hc) ?_
      exact noDoubleSpace_cons_of ' ' b (fun _ => hhb) hb
    | cons c₂ r =>
      simp only [noDoubleSpace, Bool.and_eq_true, Bool.not_eq_true'] at ha
      have hla' : (c₂ :: r).getLast? ≠ some ' ' := by
        simpa [List.getLast?] using hla
      have := ih ha.2 hla'
      simp only [List.cons_append]
      refine noDoubleSpace_cons_of c _ (fun hc => ?_) this
      · simp only [List.cons_append, List.head?]
        intro he
        injection he with h'
        rw [hc] at ha
        simp [h'] at ha

lemma string_data_ne_nil (a : String) (h : a ≠ "") : a.data ≠ [] := by
  cases a with
  | mk d =>
    intro hd
    apply h
    cases hd
    rfl

lemma concat_data (a b : String) (h1 : a ≠ "") (h2 : b ≠ "") :
    (concat a b).data = a.data ++ ' ' :: b.data := by
  have : concat a b = a ++ " " ++ b := by
    simp [concat, h1, h2]
  rw [this]
  show (a.data ++ " ".data) ++ b.data = _
  rw [List.append_assoc]
  rfl

lemma spacedOK_concat (a b : String)
    (ha : spacedOK a = true) (hb : spacedOK b = true) :
    spacedOK (concat a b) = true := by
  by_cases h1 : a = ""
  · simpa [concat, h1] using hb
  by_cases h2 : b = ""
  · simpa [concat, h1, h2] using ha
  simp only [spacedOK, Bool.and_eq_true, bne_iff_ne, ne_eq] at ha hb ⊢
  obtain ⟨⟨ha1, ha2⟩, ha3⟩ := ha
  obtain ⟨⟨hb1, hb2⟩, hb3⟩ := hb
  rw [concat_data a b h1 h2]
  have hane : a.data ≠ [] := string_data_ne_nil a h1
  have hbne : b.data ≠ [] := string_data_ne_nil b h2
  refine ⟨⟨?_, ?_⟩, noDoubleSpace_append _ _ ha3 hb3 ha2 hb1⟩
  · rw [List.head?_append]
    cases hd : a.data with
    | nil => exact absurd hd hane
    | cons c r =>
      rw [hd] at ha1
      simpa using ha1
  · intro he
    rw [List.getLast?_append] at he
    cases hbd : b.data with
    | nil => exact hbne hbd
    | cons d r =>
      have h1 : (' ' :: b.data).getLast? = b.data.getLast? := by
        rw [hbd]
        exact List.getLast?_cons_cons
      rw [h1] at he
      cases hgl : b.data.getLast? with
      | none =>
        rw [hbd] at hgl
        simp [List.getLast?_eq_none_iff] at hgl
      | some x =>
        rw [hgl] at he
        simp only [Option.or_some] at he
        exact hb2 (hgl.trans he)

lemma digitChar_ne_space : ∀ m : Nat, Nat.digitChar m ≠ ' ' := by
  intro m
  match m with
  | 0 | 1 | 2 | 3 | 4 | 5 | 6 | 7 | 8 | 9 | 10 | 11 | 12 | 13 | 14 | 15 => decide
  | n + 16 =>
    unfold Nat.digitChar
    repeat rw [if_neg (by omega)]
    decide

lemma toDigitsCore_ne_space (b : Nat) :
    ∀ (fuel n : Nat) (ds : List Char), (∀ c ∈ ds, c ≠ ' ') →
      ∀ c ∈ Nat.toDigitsCore b fuel n ds, c ≠ ' ' := by
  intro fuel
  induction fuel with
  | zero => intro n ds hds c hc; exact hds c hc
  | succ f ih =>
    intro n ds hds c hc
    rw [Nat.toDigitsCore] at hc
    have hcons : ∀ x ∈ Nat.digitChar (n % b) :: ds, x ≠ ' ' := by
      intro x hx
      rcases List.mem_cons.mp hx with hx | hx
      · rw [hx]; exact digitChar_ne_space _
      · exact hds x hx
    by_cases h : n / b = 0
    · rw [if_pos h] at hc
      exact hcons c hc
    · rw [if_neg h] at hc
      exact ih (n / b) _ hcons c hc

lemma natRepr_ne_space (n : Nat) : ∀ c ∈ (Nat.repr n).data, c ≠ ' ' := by
  intro c hc
  have : (Nat.repr n).data = Nat.toDigits 10 n := rfl
  rw [this] at hc
  exact toDigitsCore_ne_space 10 (n + 1) n [] (by simp) c hc

lemma noSpaceStr_jnumToStr (n : JNum) : noSpaceStr n.toStr = true := by
  cases n with
  | int i =>
    cases i with
    | ofNat m =>
      simp only [JNum.toStr, noSpaceStr, List.all_eq_true, bne_iff_ne, ne_eq]
      intro c hc
      exact natRepr_ne_space m c hc
    | negSucc m =>
      simp only [JNum.toStr, noSpaceStr, List.all_eq_true, bne_iff_ne, ne_eq]
      intro c hc
      have : (toString (Int.negSucc m)).data = '-' :: (Nat.repr (m + 1)).data := rfl
      rw [this] at hc
      rcases List.mem_cons.mp hc with hc | hc
      · rw [hc]; decide
      · exact natRepr_ne_space (m + 1) c hc
  | nan => decide
  | inf => decide
  | negInf => decide

lemma spacedOK_clsxKey (k : String) (h : noSpaceStr k = true) :
    spacedOK (clsxKey k) = true := by
  by_cases hk : k = ""
  · simp [clsxKey, hk, spacedOK_empty]
  · rw [clsxKey, if_neg (by simpa using hk)]
    exact spacedOK_of_noSpace k h

lemma spacedOK_castMapLoop (kvs : List (String × MapVal)) (res : String)
    (hk : spaceFreeKeys kvs = true) (hres : spacedOK res = true) :
    spacedOK (castMapLoop kvs res) = true := by
  induction kvs generalizing res with
  | nil => exact hres
  | cons p rest ih =>
    obtain ⟨k, v⟩ := p
    simp only [spaceFreeKeys, Bool.and_eq_true] at hk
    rw [castMapLoop]
    by_cases h : truthyMV v = true
    · rw [if_pos h]
      exact ih _ hk.2 (spacedOK_concat _ _ hres (spacedOK_clsxKey k hk.1))
    · rw [if_neg h]
      exact ih _ hk.2 hres

lemma spacedOK_castValue_clsxFold :
    (∀ v : ClassValue, spaceFreeCV v = true → spacedOK (castValue v) = true) ∧
    (∀ acc (xs : List ClassValue), spaceFreeList xs = true → spacedOK acc = true →
      spacedOK (clsxFold acc xs) = true) := by
  refine castValue.mutual_induct
    (fun v => spaceFreeCV v = true → spacedOK (castValue v) = true)
    (fun acc xs => spaceFreeList xs = true → spacedOK acc = true →
      spacedOK (clsxFold acc xs) = true)
    ?_ ?_ ?_ ?_ ?_ ?_ ?_ ?_ ?_
  · intro s hs
    exact spacedOK_of_noSpace s hs
  · intro n _
    exact spacedOK_of_noSpace _ (noSpaceStr_jnumToStr n)
  · intro xs ih hs
    exact ih hs spacedOK_empty
  · intro kvs hs
    exact spacedOK_castMapLoop kvs "" hs spacedOK_empty
  · intro _
    exact spacedOK_empty
  · intro b _
    exact spacedOK_empty
  · intro _
    exact spacedOK_empty
  · intro acc _ hacc
    exact hacc
  · intro acc input rest ih1 ih2 hs hacc
    simp only [spaceFreeList, Bool.and_eq_true] at hs
    rw [clsxFold]
    refine ih2 hs.2 ?_
    by_cases h : truthyCV input = true
    · rw [if_pos h]
      exact spacedOK_concat _ _ hacc (ih1 hs.1)
    · rw [if_neg h]
      exact hacc

/-- C8 counterexample: the claim that every `clsx` result has no leading,
trailing or double spaces fails for the input `" a"`, whose result is the
string `" a"` itself, with a leading space. -/
theorem clsx_spacing_counterexample :
    clsx [.str " a"] = " a" ∧ spacedOK (clsx [.str " a"]) = false := by
  constructor <;> rfl

/-- C8 amended: for every sequence of inputs whose string atoms (string
inputs, nested array elements and map keys) contain no space character,
the `clsx` result has no leading space, no trailing space and no two
consecutive spaces; empty contributions are filtered out by `concat`, so
they never produce extra separators. -/
theorem clsx_wellSpaced (inputs : List ClassValue)
    (h : spaceFreeList inputs = true) :
    spacedOK (clsx inputs) = true :=
  spacedOK_castValue_clsxFold.2 "" inputs h spacedOK_empty

/-- Witness for `clsx_wellSpaced` at a concrete input. -/
theorem clsx_wellSpaced_witness :
    spaceFreeList [ClassValue.str "a", .arr [.str "b", .str ""], .map [("c", .cv (.bool true))]] = true
    ∧ spacedOK (clsx [ClassValue.str "a", .arr [.str "b", .str ""], .map [("c", .cv (.bool true))]]) = true :=
  ⟨rfl, clsx_wellSpaced _ rfl⟩

/-! ### Association-list lemmas for JavaScript objects -/

lemma lookupJS_cons_self (k : String) (v : Value) (l : List (String × Value)) :
    lookupJS ((k, v) :: l) k = v := by
  simp [lookupJS]

lemma lookupJS_cons_ne (k k' : String) (v : Value) (l : List (String × Value))
    (h : k' ≠ k) : lookupJS ((k', v) :: l) k = lookupJS l k := by
  rw [lookupJS, List.find?_cons_of_neg _ (by simpa using h), lookupJS]

lemma hasKeyJS_cons_self (k : String) (v : Value) (l : List (String × Value)) :
    hasKeyJS ((k, v) :: l) k = true := by
  simp [hasKeyJS]

lemma hasKeyJS_cons_ne (k k' : String) (v : Value) (l : List (String × Value))
    (h : k' ≠ k) : hasKeyJS ((k', v) :: l) k = hasKeyJS l k := by
  rw [hasKeyJS, List.find?_cons_of_neg _ (by simpa using h), hasKeyJS]

lemma lookupJS_insertKV_self (acc : List (String × Value)) (k : String) (v : Value) :
    lookupJS (insertKV acc k v) k = v := by
  induction acc with
  | nil => simp [insertKV, lookupJS]
  | cons p rest ih =>
    obtain ⟨k', v'⟩ := p
    by_cases h : k' = k
    · simp [insertKV, h, lookupJS_cons_self]
    · rw [insertKV, if_neg (by simpa using h), lookupJS_cons_ne k k' v' _ h]
      exact ih

lemma hasKeyJS_insertKV_self (acc : List (String × Value)) (k : String) (v : Value) :
    hasKeyJS (insertKV acc k v) k = true := by
  induction acc with
  | nil => simp [insertKV, hasKeyJS]
  | cons p rest ih =>
    obtain ⟨k', v'⟩ := p
    by_cases h : k' = k
    · simp [insertKV, h, hasKeyJS_cons_self]
    · rw [insertKV, if_neg (by simpa using h), hasKeyJS_cons_ne k k' v' _ h]
      exact ih

lemma lookupJS_insertKV_ne (acc : List (String × Value)) (k k' : String) (v : Value)
    (h : k' ≠ k) : lookupJS (insertKV acc k v) k' = lookupJS acc k' := by
  induction acc with
  | nil =>
    rw [insertKV, lookupJS_cons_ne k' k v [] (fun he => h he.symm)]
  | cons p rest ih =>
    obtain ⟨k₀, v₀⟩ := p
    by_cases h0 : k₀ = k
    · subst h0
      rw [insertKV, if_pos (by simp)]
      rw [lookupJS_cons_ne k' k₀ v rest (fun he => h he.symm),
          lookupJS_cons_ne k' k₀ v₀ rest (fun he => h he.symm)]
    · rw [insertKV, if_neg (by simpa using h0)]
      by_cases hk : k₀ = k'
      · subst hk
        rw [lookupJS_cons_self, lookupJS_cons_self]
      · rw [lookupJS_cons_ne k' k₀ v₀ _ hk, lookupJS_cons_ne k' k₀ v₀ _ hk]
        exact ih

/-- A top-level argument that fails the object guard, or enumerates no
entries (such as `null`, dates and regexes), is a no-op of the `reduce`
loop. -/
lemma mergeInputs_noop (f : Nat) (acc : List (String × Value))
    (x : Value) (rest : List Value) (n : Nat)
    (h : skipInput x = true ∨ entriesOf x = []) :
    mergeInputs (f + 1) acc (x :: rest) n = mergeInputs f acc rest n := by
  rcases h with h | h
  · simp [mergeInputs, h]
  · by_cases hs : skipInput x = true
    · simp [mergeInputs, hs]
    · simp [mergeInputs, hs, h, mergeEntries]
      cases f <;> rfl

/-- Fuel monotonicity: a non-fuel result of any of the three merge loops
is stable under additional fuel. -/
lemma merge_mono : ∀ f g, f ≤ g →
    (∀ inputs n, mergeProps f inputs n ≠ .fuel →
      mergeProps g inputs n = mergeProps f inputs n) ∧
    (∀ acc inputs n, mergeInputs f acc inputs n ≠ .fuel →
      mergeInputs g acc inputs n = mergeInputs f acc inputs n) ∧
    (∀ acc es n, mergeEntries f acc es n ≠ .fuel →
      mergeEntries g acc es n = mergeEntries f acc es n) := by
  intro f
  induction f with
  | zero =>
    intro g _
    exact ⟨fun inputs n h => absurd rfl h,
           fun acc inputs n h => absurd rfl h,
           fun acc es n h => absurd rfl h⟩
  | succ f ih =>
    intro g hg
    obtain ⟨g', rfl⟩ : ∃ g', g = g' + 1 := ⟨g - 1, by omega⟩
    obtain ⟨ihM, ihI, ihE⟩ := ih g' (by omega)
    refine ⟨?_, ?_, ?_⟩
    · intro inputs n h
      simp only [mergeProps] at h ⊢
      cases hI : mergeInputs f [] inputs (n + 1) with
      | ok kvs n' => rw [ihI _ _ _ (by rw [hI]; simp), hI]
      | err => rw [ihI _ _ _ (by rw [hI]; simp), hI]
      | fuel => rw [hI] at h; exact absurd rfl h
    · intro acc inputs n h
      cases inputs with
      | nil => simp [mergeInputs]
      | cons i rest =>
        simp only [mergeInputs] at h ⊢
        by_cases hs : skipInput i = true
        · rw [if_pos hs] at h
          rw [if_pos hs, if_pos hs]
          exact ihI _ _ _ h
        · rw [if_neg hs] at h
          rw [if_neg hs, if_neg hs]
          cases hE : mergeEntries f acc (entriesOf i) n with
          | ok acc' n' =>
            rw [hE] at h
            rw [ihE _ _ _ (by rw [hE]; simp), hE]
            exact ihI _ _ _ h
          | err => rw [ihE _ _ _ (by rw [hE]; simp), hE]
          | fuel => rw [hE] at h; exact absurd rfl h
    · intro acc es n h
      cases es with
      | nil => simp [mergeEntries]
      | cons e rest =>
        obtain ⟨k, v⟩ := e
        simp only [mergeEntries] at h ⊢
        by_cases h1 : (isPlainObject v && !isArrayJS v) = true
        · rw [if_pos h1] at h
          rw [if_pos h1, if_pos h1]
          cases hM : mergeProps f [lookupJS acc k, v] n with
          | ok w n' =>
            rw [hM] at h
            rw [ihM _ _ (by rw [hM]; simp), hM]
            exact ihE _ _ _ h
          | err => rw [ihM _ _ (by rw [hM]; simp), hM]
          | fuel => rw [hM] at h; exact absurd rfl h
        · rw [if_neg h1] at h
          rw [if_neg h1, if_neg h1]
          by_cases h2 : isFunctionJS v = true
          · rw [if_pos h2] at h
            rw [if_pos h2, if_pos h2]
            exact ihE _ _ _ h
          · rw [if_neg h2] at h
            rw [if_neg h2, if_neg h2]
            cases hC : sclone n v with
            | some p =>
              obtain ⟨w, n'⟩ := p
              rw [hC] at h
              exact ihE _ _ _ h
            | none => rfl

lemma keepInput_true_iff (v : Value) :
    keepInput v = true ↔ (skipInput v = false ∧ v ≠ .vNull) := by
  cases v <;> simp [keepInput, skipInput, isNullJS, typeofObject, isArrayJS]

lemma keepInput_false_cases (v : Value) (h : keepInput v = false) :
    skipInput v = true ∨ v = .vNull := by
  cases v <;> simp_all [keepInput, skipInput, isNullJS, typeofObject, isArrayJS]

lemma entriesOf_null : entriesOf .vNull = [] := rfl

lemma mergeInputs_filter_fwd : ∀ f acc inputs n out n',
    mergeInputs f acc inputs n = .ok out n' →
    mergeInputs f acc (inputs.filter keepInput) n = .ok out n' := by
  intro f
  induction f with
  | zero =>
    intro acc inputs n out n' h
    exact absurd h (by simp [mergeInputs])
  | succ f ih =>
    intro acc inputs n out n' h
    cases inputs with
    | nil => simpa [mergeInputs] using h
    | cons i rest =>
      by_cases hk : keepInput i = true
      · obtain ⟨hs, -⟩ := (keepInput_true_iff i).mp hk
        rw [List.filter_cons_of_pos hk]
        rw [mergeInputs, if_neg (by simp [hs])] at h
        rw [mergeInputs, if_neg (by simp [hs])]
        cases hE : mergeEntries f acc (entriesOf i) n with
        | ok acc1 n1 =>
          rw [hE] at h
          exact ih _ _ _ _ _ h
        | err => rw [hE] at h; cases h
        | fuel => rw [hE] at h; cases h
      · have hcase := keepInput_false_cases i (by simpa using hk)
        rw [List.filter_cons_of_neg (by simpa using hk)]
        have hrest : mergeInputs f acc rest n = .ok out n' := by
          rcases hcase with hs | hnull
          · rwa [mergeInputs, if_pos hs] at h
          · subst hnull
            rw [mergeInputs, if_neg (by simp [skipInput, typeofObject, isArrayJS])] at h
            cases f with
            | zero => simp [mergeEntries] at h
            | succ f2 =>
              rw [show mergeEntries (f2 + 1) acc (entriesOf .vNull) n = .ok acc n from rfl] at h
              exact h
        have hfil := ih _ _ _ _ _ hrest
        exact ((merge_mono f (f + 1) (by omega)).2.1 acc (rest.filter keepInput) n
          (by rw [hfil]; simp)).trans hfil

lemma mergeInputs_filter_bwd : ∀ f acc inputs n out n',
    mergeInputs f acc (inputs.filter keepInput) n = .ok out n' →
    ∃ g, mergeInputs g acc inputs n = .ok out n' := by
  intro f acc inputs
  induction inputs generalizing f acc with
  | nil =>
    intro n out n' h
    exact ⟨f, by simpa using h⟩
  | cons i rest ih =>
    intro n out n' h
    by_cases hk : keepInput i = true
    · obtain ⟨hs, -⟩ := (keepInput_true_iff i).mp hk
      rw [List.filter_cons_of_pos hk] at h
      cases f with
      | zero => exact absurd h (by simp [mergeInputs])
      | succ f1 =>
        rw [mergeInputs, if_neg (by simp [hs])] at h
        cases hE : mergeEntries f1 acc (entriesOf i) n with
        | ok acc1 n1 =>
          rw [hE] at h
          obtain ⟨g, hg⟩ := ih f1 acc1 n1 out n' h
          refine ⟨max f1 g + 1, ?_⟩
          rw [mergeInputs, if_neg (by simp [hs])]
          rw [(merge_mono f1 (max f1 g) (by omega)).2.2 acc (entriesOf i) n (by rw [hE]; simp), hE]
          exact (merge_mono g (max f1 g) (by omega)).2.1 acc1 rest n1 (by rw [hg]; simp) |>.trans hg
        | err => rw [hE] at h; cases h
        | fuel => rw [hE] at h; cases h
    · rw [List.filter_cons_of_neg (by simpa using hk)] at h
      obtain ⟨g, hg⟩ := ih f acc _ out n' h
      rcases keepInput_false_cases i (by simpa using hk) with hs | hnull
      · exact ⟨g + 1, by rw [mergeInputs, if_pos hs]; exact hg⟩
      · subst hnull
        refine ⟨g + 2, ?_⟩
        rw [mergeInputs, if_neg (by simp [skipInput, typeofObject, isArrayJS])]
        rw [show mergeEntries (g + 1) acc (entriesOf .vNull) n = .ok acc n from rfl]
        exact (merge_mono g (g + 1) (by omega)).2.1 acc rest n (by rw [hg]; simp) |>.trans hg

/-- C9: mergeProps skips, as a whole, every top-level argument that is not
a non-array object: `undefined`, numbers, strings, booleans, functions and
arrays are skipped by the object guard and `null` enumerates no entries,
so merging any input list produces the same result as merging the
sublist of its non-array non-null object arguments, and merging an empty
list (or a list of only skipped arguments) yields a fresh empty object. -/
theorem mergeProps_skips_non_objects :
    (∀ inputs n v n', MergesTo inputs n v n' ↔
      MergesTo (inputs.filter keepInput) n v n')
    ∧ (∀ n, MergesTo [] n (.vObj n []) (n + 1))
    ∧ (∀ s, keepInput (.vStr s) = false) ∧ (∀ i, keepInput (.vNum i) = false)
    ∧ (∀ b, keepInput (.vBool b) = false) ∧ keepInput .vUndefined = false
    ∧ keepInput .vNull = false ∧ (∀ id, keepInput (.vFn id) = false)
    ∧ (∀ id xs, keepInput (.vArr id xs) = false)
    ∧ (∀ id kvs, keepInput (.vObj id kvs) = true) := by
  refine ⟨?_, fun n => ⟨2, rfl⟩, fun s => rfl, fun i => rfl, fun b => rfl, rfl,
    rfl, fun id => rfl, fun id xs => rfl, fun id kvs => rfl⟩
  intro inputs n v n'
  constructor
  · rintro ⟨f, hf⟩
    cases f with
    | zero => cases hf
    | succ f1 =>
      rw [mergeProps] at hf
      cases hI : mergeInputs f1 [] inputs (n + 1) with
      | ok kvs n1 =>
        rw [hI] at hf
        refine ⟨f1 + 1, ?_⟩
        rw [mergeProps, mergeInputs_filter_fwd f1 [] inputs (n + 1) kvs n1 hI]
        exact hf
      | err => rw [hI] at hf; cases hf
      | fuel => rw [hI] at hf; cases hf
  · rintro ⟨f, hf⟩
    cases f with
    | zero => cases hf
    | succ f1 =>
      rw [mergeProps] at hf
      cases hI : mergeInputs f1 [] (inputs.filter keepInput) (n + 1) with
      | ok kvs n1 =>
        rw [hI] at hf
        obtain ⟨g, hg⟩ := mergeInputs_filter_bwd f1 [] inputs (n + 1) kvs n1 hI
        exact ⟨g + 1, by rw [mergeProps, hg]; exact hf⟩
      | err => rw [hI] at hf; cases hf
      | fuel => rw [hI] at hf; cases hf

/-- Witness for `mergeProps_skips_non_objects` at a concrete input. -/
theorem mergeProps_skips_non_objects_witness :
    MergesTo [Value.vNull, .vStr "x", .vArr 9 [.vFn 4], .vObj 0 [("a", .vNum 2)]] 100
      (.vObj 100 [("a", .vNum 2)]) 101 := by
  refine (mergeProps_skips_non_objects.1 _ 100 _ 101).mpr ?_
  exact ⟨5, rfl⟩

/-- Processing an entry list that ends in a non-plain-object non-function
value `w` under key `k` ends with `acc[k] = structuredClone(w)`. -/
lemma mergeEntries_last_clone : ∀ f (acc kvs : List (String × Value)) k w n out n',
    isPlainObject w = false → isFunctionJS w = false →
    mergeEntries f acc (kvs ++ [(k, w)]) n = .ok out n' →
    ∃ n₂ w' n₃, sclone n₂ w = some (w', n₃)
      ∧ lookupJS out k = w' ∧ hasKeyJS out k = true := by
  intro f acc kvs
  induction kvs generalizing f acc with
  | nil =>
    intro k w n out n' hp hf h
    cases f with
    | zero => cases h
    | succ f1 =>
      rw [List.nil_append, mergeEntries, if_neg (by simp [hp]), if_neg (by simp [hf])] at h
      cases hC : sclone n w with
      | some p =>
        obtain ⟨w', n₂⟩ := p
        rw [hC] at h
        cases f1 with
        | zero => cases h
        | succ f2 =>
          have h' : EStep.ok (insertKV acc k w') n₂ = EStep.ok out n' := h
          injection h' with h1 h2
          subst h1
          exact ⟨n, w', n₂, hC, lookupJS_insertKV_self acc k w',
            hasKeyJS_insertKV_self acc k w'⟩
      | none => rw [hC] at h; cases h
  | cons e rest ih =>
    intro k w n out n' hp hf h
    obtain ⟨k₀, v₀⟩ := e
    cases f with
    | zero => cases h
    | succ f1 =>
      rw [List.cons_append, mergeEntries] at h
      by_cases h1 : (isPlainObject v₀ && !isArrayJS v₀) = true
      · rw [if_pos h1] at h
        cases hM : mergeProps f1 [lookupJS acc k₀, v₀] n with
        | ok w₀ n₁ =>
          rw [hM] at h
          exact ih f1 _ k w n₁ out n' hp hf h
        | err => rw [hM] at h; cases h
        | fuel => rw [hM] at h; cases h
      · rw [if_neg h1] at h
        by_cases h2 : isFunctionJS v₀ = true
        · rw [if_pos h2] at h
          exact ih f1 _ k w n out n' hp hf h
        · rw [if_neg h2] at h
          cases hC : sclone n v₀ with
          | some p =>
            obtain ⟨w₀, n₁⟩ := p
            rw [hC] at h
            exact ih f1 _ k w n₁ out n' hp hf h
          | none => rw [hC] at h; cases h

/-- A successful merge whose last input is a plain object ends by running
the entry loop of that object on some intermediate accumulator. -/
lemma mergeInputs_last_obj : ∀ f acc inputs (i : Nat) es n out n',
    mergeInputs f acc (inputs ++ [Value.vObj i es]) n = .ok out n' →
    ∃ f₁ acc₁ n₁, mergeEntries f₁ acc₁ es n₁ = .ok out n' := by
  intro f acc inputs
  induction inputs generalizing f acc with
  | nil =>
    intro i es n out n' h
    cases f with
    | zero => cases h
    | succ f1 =>
      rw [List.nil_append, mergeInputs,
        if_neg (by simp [skipInput, typeofObject, isArrayJS])] at h
      cases hE : mergeEntries f1 acc (entriesOf (Value.vObj i es)) n with
      | ok acc₂ n₂ =>
        rw [hE] at h
        cases f1 with
        | zero => cases h
        | succ f2 =>
          have h' : EStep.ok acc₂ n₂ = EStep.ok out n' := h
          injection h' with h1 h2
          subst h1 h2
          exact ⟨f2 + 1, acc, n, by simpa [entriesOf] using hE⟩
      | err => rw [hE] at h; cases h
      | fuel => rw [hE] at h; cases h
  | cons x rest ih =>
    intro i es n out n' h
    cases f with
    | zero => cases h
    | succ f1 =>
      rw [List.cons_append, mergeInputs] at h
      by_cases hs : skipInput x = true
      · rw [if_pos hs] at h
        exact ih f1 acc i es n out n' h
      · rw [if_neg hs] at h
        cases hE : mergeEntries f1 acc (entriesOf x) n with
        | ok acc₂ n₂ =>
          rw [hE] at h
          exact ih f1 acc₂ i es n₂ out n' h
        | err => rw [hE] at h; cases h
        | fuel => rw [hE] at h; cases h

/-- C5: mergeProps undefined-overwrite.  For every merge whose last input
own-presents a key `k` with value `undefined` as its last entry, the
result has `k` own-present (`Object.hasOwn` passes) with value strictly
equal to `undefined`, overwriting any earlier value accumulated for `k`
("key absent" and "key present with value undefined" are distinguished
by `hasKeyJS`). -/
theorem mergeProps_undefined_overwrite (f : Nat) (inputs : List Value)
    (i : Nat) (kvs : List (String × Value)) (k : String) (n : Nat)
    (v : Value) (n' : Nat)
    (h : mergeProps f (inputs ++ [.vObj i (kvs ++ [(k, .vUndefined)])]) n = .ok v n') :
    hasKeyJS (entriesOf v) k = true ∧ lookupJS (entriesOf v) k = .vUndefined := by
  cases f with
  | zero => cases h
  | succ f1 =>
    rw [mergeProps] at h
    cases hI : mergeInputs f1 [] (inputs ++ [.vObj i (kvs ++ [(k, .vUndefined)])]) (n + 1) with
    | ok out n₁ =>
      rw [hI] at h
      injection h with h1 h2
      obtain ⟨f₂, acc₂, n₂, hE⟩ := mergeInputs_last_obj f1 [] inputs i _ (n + 1) out n₁ hI
      obtain ⟨n₃, w', n₄, hC, hl, hk⟩ :=
        mergeEntries_last_clone f₂ acc₂ kvs k .vUndefined n₂ out n₁ rfl rfl hE
      have hw : w' = .vUndefined := by
        rw [show sclone n₃ Value.vUndefined = some (.vUndefined, n₃) from rfl] at hC
        injection hC with hC1
        injection hC1 with hC2 hC3
        exact hC2.symm
      subst hw
      rw [← h1]
      exact ⟨by simpa [entriesOf] using hk, by simpa [entriesOf] using hl⟩
    | err => rw [hI] at h; cases h
    | fuel => rw [hI] at h; cases h

/-- Witness for `mergeProps_undefined_overwrite` at the concrete input of
the test suite: merging `[{value: []}, {value: undefined}]`. -/
theorem mergeProps_undefined_overwrite_witness :
    hasKeyJS (entriesOf (Value.vObj 100 [("value", Value.vUndefined)])) "value" = true
    ∧ lookupJS (entriesOf (Value.vObj 100 [("value", Value.vUndefined)])) "value" = .vUndefined :=
  mergeProps_undefined_overwrite 10 [Value.vObj 0 [("value", Value.vArr 1 [])]]
    2 [] "value" 100 (Value.vObj 100 [("value", Value.vUndefined)]) 102 rfl

/-- A successful `structuredClone` advances the counter, preserves the
value up to identities, produces a function-free value, and uses only
fresh identities from the interval between the counters. -/
lemma scloneOk :
    (∀ (n : Nat) (v : Value), ∀ w n', sclone n v = some (w, n') →
      n ≤ n' ∧ strip w = strip v ∧ fnFree w = true
        ∧ ∀ id ∈ idsOf w, n ≤ id ∧ id < n')
    ∧ (∀ (n : Nat) (kvs : List (String × Value)), ∀ kvs' n',
        scloneKVs n kvs = some (kvs', n') →
      n ≤ n' ∧ stripKVs kvs' = stripKVs kvs ∧ fnFreeKVs kvs' = true
        ∧ ∀ id ∈ idsOfKVs kvs', n ≤ id ∧ id < n')
    ∧ (∀ (n : Nat) (xs : List Value), ∀ ys n', scloneList n xs = some (ys, n') →
      n ≤ n' ∧ stripList ys = stripList xs ∧ fnFreeList ys = true
        ∧ ∀ id ∈ idsOfList ys, n ≤ id ∧ id < n') := by
  refine sclone.mutual_induct
    (fun n v => ∀ w n', sclone n v = some (w, n') →
      n ≤ n' ∧ strip w = strip v ∧ fnFree w = true
        ∧ ∀ id ∈ idsOf w, n ≤ id ∧ id < n')
    (fun n kvs => ∀ kvs' n', scloneKVs n kvs = some (kvs', n') →
      n ≤ n' ∧ stripKVs kvs' = stripKVs kvs ∧ fnFreeKVs kvs' = true
        ∧ ∀ id ∈ idsOfKVs kvs', n ≤ id ∧ id < n')
    (fun n xs => ∀ ys n', scloneList n xs = some (ys, n') →
      n ≤ n' ∧ stripList ys = stripList xs ∧ fnFreeList ys = true
        ∧ ∀ id ∈ idsOfList ys, n ≤ id ∧ id < n')
    ?_ ?_ ?_ ?_ ?_ ?_ ?_ ?_ ?_ ?_ ?_ ?_ ?_ ?_ ?_ ?_ ?_ ?_ ?_ ?_
  · intro n s w n' h
    obtain ⟨rfl, rfl⟩ : Value.vStr s = w ∧ n = n' := by simpa [sclone] using h
    exact ⟨Nat.le_refl n, rfl, rfl, by simp [idsOf]⟩
  · intro n i w n' h
    obtain ⟨rfl, rfl⟩ : Value.vNum i = w ∧ n = n' := by simpa [sclone] using h
    exact ⟨Nat.le_refl n, rfl, rfl, by simp [idsOf]⟩
  · intro n b w n' h
    obtain ⟨rfl, rfl⟩ : Value.vBool b = w ∧ n = n' := by simpa [sclone] using h
    exact ⟨Nat.le_refl n, rfl, rfl, by simp [idsOf]⟩
  · intro n w n' h
    obtain ⟨rfl, rfl⟩ : Value.vNull = w ∧ n = n' := by simpa [sclone] using h
    exact ⟨Nat.le_refl n, rfl, rfl, by simp [idsOf]⟩
  · intro n w n' h
    obtain ⟨rfl, rfl⟩ : Value.vUndefined = w ∧ n = n' := by simpa [sclone] using h
    exact ⟨Nat.le_refl n, rfl, rfl, by simp [idsOf]⟩
  · intro n id w n' h
    exact absurd h (by simp [sclone])
  · intro n id xs ys n₁ hcl ih w n' h
    simp only [sclone, hcl] at h
    obtain ⟨rfl, rfl⟩ : Value.vArr n ys = w ∧ n₁ = n' := by
      exact ⟨(Prod.mk.injEq _ _ _ _ ▸ Option.some.inj h).1.symm ▸ rfl,
        (Prod.mk.injEq _ _ _ _ ▸ Option.some.inj h).2⟩
    obtain ⟨hle, hstrip, hfn, hids⟩ := ih ys n₁ hcl
    refine ⟨by omega, ?_, by simpa [fnFree] using hfn, ?_⟩
    · simp [strip, hstrip]
    · intro id' hid'
      simp only [idsOf, List.mem_cons] at hid'
      rcases hid' with rfl | hid'
      · exact ⟨Nat.le_refl _, by omega⟩
      · have := hids id' hid'
        omega
  · intro n id xs hcl ih w n' h
    simp [sclone, hcl] at h
  · intro n id kvs kvs₀ n₁ hcl ih w n' h
    simp only [sclone, hcl] at h
    obtain ⟨rfl, rfl⟩ : Value.vObj n kvs₀ = w ∧ n₁ = n' := by
      exact ⟨(Prod.mk.injEq _ _ _ _ ▸ Option.some.inj h).1.symm ▸ rfl,
        (Prod.mk.injEq _ _ _ _ ▸ Option.some.inj h).2⟩
    obtain ⟨hle, hstrip, hfn, hids⟩ := ih kvs₀ n₁ hcl
    refine ⟨by omega, ?_, by simpa [fnFree] using hfn, ?_⟩
    · simp [strip, hstrip]
    · intro id' hid'
      simp only [idsOf, List.mem_cons] at hid'
      rcases hid' with rfl | hid'
      · exact ⟨Nat.le_refl _, by omega⟩
      · have := hids id' hid'
        omega
  · intro n id kvs hcl ih w n' h
    simp [sclone, hcl] at h
  · intro n id t w n' h
    obtain ⟨rfl, rfl⟩ : Value.vDate n t = w ∧ n + 1 = n' := by simpa [sclone] using h
    exact ⟨by omega, rfl, rfl, by intro id' hid'; simp [idsOf] at hid'; omega⟩
  · intro n id src w n' h
    obtain ⟨rfl, rfl⟩ : Value.vRegex n src = w ∧ n + 1 = n' := by simpa [sclone] using h
    exact ⟨by omega, rfl, rfl, by intro id' hid'; simp [idsOf] at hid'; omega⟩
  · intro n ys n' h
    obtain ⟨rfl, rfl⟩ : ([] : List Value) = ys ∧ n = n' := by simpa [scloneList] using h
    exact ⟨Nat.le_refl n, rfl, rfl, by simp [idsOfList]⟩
  · intro n x rest y n₀ h1 ys₀ n₁ h2 ih1 ih2 ys n' h
    simp only [scloneList, h1, h2] at h
    obtain ⟨rfl, rfl⟩ : y :: ys₀ = ys ∧ n₁ = n' := by
      exact ⟨(Prod.mk.injEq _ _ _ _ ▸ Option.some.inj h).1,
        (Prod.mk.injEq _ _ _ _ ▸ Option.some.inj h).2⟩
    obtain ⟨hle1, hs1, hf1, hi1⟩ := ih1 y n₀ h1
    obtain ⟨hle2, hs2, hf2, hi2⟩ := ih2 ys₀ n₁ h2
    refine ⟨by omega, by simp [stripList, hs1, hs2], by simp [fnFreeList, hf1, hf2], ?_⟩
    intro id hid
    simp only [idsOfList, List.mem_append] at hid
    rcases hid with hid | hid
    · have := hi1 id hid
      omega
    · have := hi2 id hid
      omega
  · intro n x rest y n₀ h1 h2 ih1 ih2 ys n' h
    simp [scloneList, h1, h2] at h
  · intro n x rest h1 ih1 ys n' h
    simp [scloneList, h1] at h
  · intro n kvs' n' h
    obtain ⟨rfl, rfl⟩ : ([] : List (String × Value)) = kvs' ∧ n = n' := by
      simpa [scloneKVs] using h
    exact ⟨Nat.le_refl n, rfl, rfl, by simp [idsOfKVs]⟩
  · intro n k v rest y n₀ h1 kvs₀ n₁ h2 ih1 ih2 kvs' n' h
    simp only [scloneKVs, h1, h2] at h
    obtain ⟨rfl, rfl⟩ : (k, y) :: kvs₀ = kvs' ∧ n₁ = n' := by
      exact ⟨(Prod.mk.injEq _ _ _ _ ▸ Option.some.inj h).1,
        (Prod.mk.injEq _ _ _ _ ▸ Option.some.inj h).2⟩
    obtain ⟨hle1, hs1, hf1, hi1⟩ := ih1 y n₀ h1
    obtain ⟨hle2, hs2, hf2, hi2⟩ := ih2 kvs₀ n₁ h2
    refine ⟨by omega, by simp [stripKVs, hs1, hs2], by simp [fnFreeKVs, hf1, hf2], ?_⟩
    intro id hid
    simp only [idsOfKVs, List.mem_append] at hid
    rcases hid with hid | hid
    · have := hi1 id hid
      omega
    · have := hi2 id hid
      omega
  · intro n k v rest y n₀ h1 h2 ih1 ih2 kvs' n' h
    simp [scloneKVs, h1, h2] at h
  · intro n k v rest h1 ih1 kvs' n' h
    simp [scloneKVs, h1] at h

/-- `structuredClone` succeeds on every function-free value. -/
lemma scloneSome :
    (∀ (n : Nat) (v : Value), fnFree v = true → ∃ w n', sclone n v = some (w, n'))
    ∧ (∀ (n : Nat) (kvs : List (String × Value)), fnFreeKVs kvs = true →
        ∃ kvs' n', scloneKVs n kvs = some (kvs', n'))
    ∧ (∀ (n : Nat) (xs : List Value), fnFreeList xs = true →
        ∃ ys n', scloneList n xs = some (ys, n')) := by
  refine sclone.mutual_induct
    (fun n v => fnFree v = true → ∃ w n', sclone n v = some (w, n'))
    (fun n kvs => fnFreeKVs kvs = true → ∃ kvs' n', scloneKVs n kvs = some (kvs', n'))
    (fun n xs => fnFreeList xs = true → ∃ ys n', scloneList n xs = some (ys, n'))
    ?_ ?_ ?_ ?_ ?_ ?_ ?_ ?_ ?_ ?_ ?_ ?_ ?_ ?_ ?_ ?_ ?_ ?_ ?_ ?_
  · exact fun n s _ => ⟨.vStr s, n, rfl⟩
  · exact fun n i _ => ⟨.vNum i, n, rfl⟩
  · exact fun n b _ => ⟨.vBool b, n, rfl⟩
  · exact fun n _ => ⟨.vNull, n, rfl⟩
  · exact fun n _ => ⟨.vUndefined, n, rfl⟩
  · intro n id h
    exact absurd h (by simp [fnFree])
  · intro n id xs ys n₁ hcl _ _
    exact ⟨.vArr n ys, n₁, by simp [sclone, hcl]⟩
  · intro n id xs hcl ih h
    obtain ⟨ys, n', hsome⟩ := ih (by simpa [fnFree] using h)
    rw [hcl] at hsome
    cases hsome
  · intro n id kvs kvs₀ n₁ hcl _ _
    exact ⟨.vObj n kvs₀, n₁, by simp [sclone, hcl]⟩
  · intro n id kvs hcl ih h
    obtain ⟨kvs', n', hsome⟩ := ih (by simpa [fnFree] using h)
    rw [hcl] at hsome
    cases hsome
  · exact fun n id t _ => ⟨.vDate n t, n + 1, rfl⟩
  · exact fun n id src _ => ⟨.vRegex n src, n + 1, rfl⟩
  · exact fun n _ => ⟨[], n, rfl⟩
  · intro n x rest y n₀ h1 ys₀ n₁ h2 _ _ _
    exact ⟨y :: ys₀, n₁, by simp [scloneList, h1, h2]⟩
  · intro n x rest y n₀ h1 h2 ih1 ih2 h
    simp only [fnFreeList, Bool.and_eq_true] at h
    obtain ⟨ys, n', hsome⟩ := ih2 h.2
    rw [h2] at hsome
    cases hsome
  · intro n x rest h1 ih1 h
    simp only [fnFreeList, Bool.and_eq_true] at h
    obtain ⟨w, n', hsome⟩ := ih1 h.1
    rw [h1] at hsome
    cases hsome
  · exact fun n _ => ⟨[], n, rfl⟩
  · intro n k v rest y n₀ h1 kvs₀ n₁ h2 _ _ _
    exact ⟨(k, y) :: kvs₀, n₁, by simp [scloneKVs, h1, h2]⟩
  · intro n k v rest y n₀ h1 h2 ih1 ih2 h
    simp only [fnFreeKVs, Bool.and_eq_true] at h
    obtain ⟨kvs', n', hsome⟩ := ih2 h.2
    rw [h2] at hsome
    cases hsome
  · intro n k v rest h1 ih1 h
    simp only [fnFreeKVs, Bool.and_eq_true] at h
    obtain ⟨w, n', hsome⟩ := ih1 h.1
    rw [h1] at hsome
    cases hsome

/-- Function identities are identities. -/
lemma fnIds_subset_idsOf :
    (∀ (v : Value), ∀ id ∈ fnIds v, id ∈ idsOf v)
    ∧ (∀ (kvs : List (String × Value)), ∀ id ∈ fnIdsKVs kvs, id ∈ idsOfKVs kvs)
    ∧ (∀ (xs : List Value), ∀ id ∈ fnIdsList xs, id ∈ idsOfList xs) := by
  refine fnIds.mutual_induct
    (fun v => ∀ id ∈ fnIds v, id ∈ idsOf v)
    (fun kvs => ∀ id ∈ fnIdsKVs kvs, id ∈ idsOfKVs kvs)
    (fun xs => ∀ id ∈ fnIdsList xs, id ∈ idsOfList xs)
    ?_ ?_ ?_ ?_ ?_ ?_ ?_ ?_
  · intro id id' h
    simpa [fnIds, idsOf] using h
  · intro i xs ih id h
    simp only [fnIds] at h
    simp only [idsOf, List.mem_cons]
    exact Or.inr (ih id h)
  · intro i kvs ih id h
    simp only [fnIds] at h
    simp only [idsOf, List.mem_cons]
    exact Or.inr (ih id h)
  · intro v hv1 hv2 hv3 id h
    simp [fnIds, hv1, hv2, hv3] at h
  · intro id h
    simp [fnIdsList] at h
  · intro x rest ih1 ih2 id h
    simp only [fnIdsList, List.mem_append] at h
    simp only [idsOfList, List.mem_append]
    exact h.imp (ih1 id) (ih2 id)
  · intro id h
    simp [fnIdsKVs] at h
  · intro k v rest ih1 ih2 id h
    simp only [fnIdsKVs, List.mem_append] at h
    simp only [idsOfKVs, List.mem_append]
    exact h.imp (ih1 id) (ih2 id)

lemma idsOf_lookupJS (acc : List (String × Value)) (k : String) :
    ∀ id ∈ idsOf (lookupJS acc k), id ∈ idsOfKVs acc := by
  induction acc with
  | nil =>
    intro id h
    simp [lookupJS, idsOf] at h
  | cons p rest ih =>
    obtain ⟨k₀, v₀⟩ := p
    intro id h
    by_cases hk : k₀ = k
    · subst hk
      rw [lookupJS_cons_self] at h
      simp only [idsOfKVs, List.mem_append]
      exact Or.inl h
    · rw [lookupJS_cons_ne k k₀ v₀ rest hk] at h
      simp only [idsOfKVs, List.mem_append]
      exact Or.inr (ih id h)

lemma idsOfKVs_insertKV (acc : List (String × Value)) (k : String) (w : Value) :
    ∀ id ∈ idsOfKVs (insertKV acc k w), id ∈ idsOfKVs acc ∨ id ∈ idsOf w := by
  induction acc with
  | nil =>
    intro id h
    simp only [insertKV, idsOfKVs, List.mem_append] at h
    rcases h with h | h
    · exact Or.inr h
    · simp [idsOfKVs] at h
  | cons p rest ih =>
    obtain ⟨k₀, v₀⟩ := p
    intro id h
    by_cases hk : k₀ = k
    · rw [insertKV, if_pos (by simpa using hk)] at h
      simp only [idsOfKVs, List.mem_append] at h ⊢
      rcases h with h | h
      · exact Or.inr h
      · exact Or.inl (Or.inr h)
    · rw [insertKV, if_neg (by simpa using hk)] at h
      simp only [idsOfKVs, List.mem_append] at h ⊢
      rcases h with h | h
      · exact Or.inl (Or.inl h)
      · rcases ih id h with h' | h'
        · exact Or.inl (Or.inr h')
        · exact Or.inr h'

lemma fnIdsKVs_entriesOf (i : Value) :
    ∀ id ∈ fnIdsKVs (entriesOf i), id ∈ fnIds i := by
  cases i <;> simp [entriesOf, fnIdsKVs, fnIds]

/-- Identity tracking: every identity in a successful merge result is
either fresh (allocated from the counter interval) or the identity of a
function value of the inputs (functions are the only values stored by
reference); the counter never decreases. -/
lemma merge_ids : ∀ f : Nat,
    (∀ inputs n v n', mergeProps f inputs n = .ok v n' →
      n ≤ n' ∧ ∀ id ∈ idsOf v, (n ≤ id ∧ id < n') ∨ id ∈ fnIdsInputs inputs)
    ∧ (∀ acc inputs n out n', mergeInputs f acc inputs n = .ok out n' →
      n ≤ n' ∧ ∀ id ∈ idsOfKVs out,
        id ∈ idsOfKVs acc ∨ (n ≤ id ∧ id < n') ∨ id ∈ fnIdsInputs inputs)
    ∧ (∀ acc es n out n', mergeEntries f acc es n = .ok out n' →
      n ≤ n' ∧ ∀ id ∈ idsOfKVs out,
        id ∈ idsOfKVs acc ∨ (n ≤ id ∧ id < n') ∨ id ∈ fnIdsKVs es) := by
  intro f
  induction f with
  | zero =>
    refine ⟨?_, ?_, ?_⟩
    · intro inputs n v n' h
      cases h
    · intro acc inputs n out n' h
      cases h
    · intro acc es n out n' h
      cases h
  | succ f ih =>
    obtain ⟨ihM, ihI, ihE⟩ := ih
    refine ⟨?_, ?_, ?_⟩
    · intro inputs n v n' h
      rw [mergeProps] at h
      cases hI : mergeInputs f [] inputs (n + 1) with
      | ok kvs n₁ =>
        rw [hI] at h
        injection h with h1 h2
        subst h1 h2
        obtain ⟨hle, hids⟩ := ihI _ _ _ _ _ hI
        refine ⟨by omega, ?_⟩
        intro id hid
        simp only [idsOf, List.mem_cons] at hid
        rcases hid with rfl | hid
        · exact Or.inl ⟨Nat.le_refl _, by omega⟩
        · rcases hids id hid with hacc | hfresh | hfn
          · simp [idsOfKVs] at hacc
          · exact Or.inl ⟨by omega, hfresh.2⟩
          · exact Or.inr hfn
      | err => rw [hI] at h; cases h
      | fuel => rw [hI] at h; cases h
    · intro acc inputs n out n' h
      cases inputs with
      | nil =>
        have h' : EStep.ok acc n = EStep.ok out n' := h
        injection h' with h1 h2
        subst h1 h2
        exact ⟨Nat.le_refl _, fun id hid => Or.inl hid⟩
      | cons i rest =>
        rw [mergeInputs] at h
        by_cases hs : skipInput i = true
        · rw [if_pos hs] at h
          obtain ⟨hle, hids⟩ := ihI _ _ _ _ _ h
          refine ⟨hle, fun id hid => ?_⟩
          rcases hids id hid with hacc | hfresh | hfn
          · exact Or.inl hacc
          · exact Or.inr (Or.inl hfresh)
          · exact Or.inr (Or.inr (by simp only [fnIdsInputs, List.mem_append]; exact Or.inr hfn))
        · rw [if_neg hs] at h
          cases hE : mergeEntries f acc (entriesOf i) n with
          | ok acc₁ n₁ =>
            rw [hE] at h
            obtain ⟨hle1, hids1⟩ := ihE _ _ _ _ _ hE
            obtain ⟨hle2, hids2⟩ := ihI _ _ _ _ _ h
            refine ⟨by omega, fun id hid => ?_⟩
            rcases hids2 id hid with hacc1 | hfresh | hfn
            · rcases hids1 id hacc1 with hacc | hfresh | hfn
              · exact Or.inl hacc
              · exact Or.inr (Or.inl ⟨hfresh.1, by omega⟩)
              · refine Or.inr (Or.inr ?_)
                simp only [fnIdsInputs, List.mem_append]
                exact Or.inl (fnIdsKVs_entriesOf i id hfn)
            · exact Or.inr (Or.inl ⟨by omega, hfresh.2⟩)
            · exact Or.inr (Or.inr (by simp only [fnIdsInputs, List.mem_append]; exact Or.inr hfn))
          | err => rw [hE] at h; cases h
          | fuel => rw [hE] at h; cases h
    · intro acc es n out n' h
      cases es with
      | nil =>
        have h' : EStep.ok acc n = EStep.ok out n' := h
        injection h' with h1 h2
        subst h1 h2
        exact ⟨Nat.le_refl _, fun id hid => Or.inl hid⟩
      | cons e rest =>
        obtain ⟨k, v⟩ := e
        rw [mergeEntries] at h
        by_cases h1 : (isPlainObject v && !isArrayJS v) = true
        · rw [if_pos h1] at h
          cases hM : mergeProps f [lookupJS acc k, v] n with
          | ok w n₁ =>
            rw [hM] at h
            obtain ⟨hle1, hids1⟩ := ihM _ _ _ _ hM
            obtain ⟨hle2, hids2⟩ := ihE _ _ _ _ _ h
            refine ⟨by omega, fun id hid => ?_⟩
            rcases hids2 id hid with hins | hfresh | hfn
            · rcases idsOfKVs_insertKV acc k w id hins with hacc | hw
              · exact Or.inl hacc
              · rcases hids1 id hw with hfresh | hfn
                · exact Or.inr (Or.inl ⟨hfresh.1, by omega⟩)
                · simp only [fnIdsInputs, List.mem_append, List.not_mem_nil, or_false] at hfn
                  rcases hfn with hfn | hfn
                  · exact Or.inl (idsOf_lookupJS acc k id
                      (fnIds_subset_idsOf.1 (lookupJS acc k) id hfn))
                  · refine Or.inr (Or.inr ?_)
                    simp only [fnIdsKVs, List.mem_append]
                    exact Or.inl hfn
            · exact Or.inr (Or.inl ⟨by omega, hfresh.2⟩)
            · refine Or.inr (Or.inr ?_)
              simp only [fnIdsKVs, List.mem_append]
              exact Or.inr hfn
          | err => rw [hM] at h; cases h
          | fuel => rw [hM] at h; cases h
        · rw [if_neg h1] at h
          by_cases h2 : isFunctionJS v = true
          · rw [if_pos h2] at h
            obtain ⟨fnid, rfl⟩ : ∃ fnid, v = .vFn fnid := by
              cases v <;> simp [isFunctionJS] at h2 ⊢
            obtain ⟨hle, hids⟩ := ihE _ _ _ _ _ h
            refine ⟨hle, fun id hid => ?_⟩
            rcases hids id hid with hins | hfresh | hfn
            · rcases idsOfKVs_insertKV acc k (.vFn fnid) id hins with hacc | hw
              · exact Or.inl hacc
              · refine Or.inr (Or.inr ?_)
                simp only [fnIdsKVs, List.mem_append]
                exact Or.inl (by simpa [idsOf, fnIds] using hw)
            · exact Or.inr (Or.inl hfresh)
            · refine Or.inr (Or.inr ?_)
              simp only [fnIdsKVs, List.mem_append]
              exact Or.inr hfn
          · rw [if_neg h2] at h
            cases hC : sclone n v with
            | some p =>
              obtain ⟨w, n₁⟩ := p
              rw [hC] at h
              obtain ⟨hle1, -, -, hidsw⟩ := scloneOk.1 _ _ _ _ hC
              obtain ⟨hle2, hids⟩ := ihE (insertKV acc k w) rest n₁ out n' h
              refine ⟨by omega, fun id hid => ?_⟩
              rcases hids id hid with hins | hfresh | hfn
              · rcases idsOfKVs_insertKV acc k w id hins with hacc | hw
                · exact Or.inl hacc
                · obtain ⟨ha, hb⟩ := hidsw id hw
                  exact Or.inr (Or.inl ⟨ha, by omega⟩)
              · exact Or.inr (Or.inl ⟨by omega, hfresh.2⟩)
              · refine Or.inr (Or.inr ?_)
                simp only [fnIdsKVs, List.mem_append]
                exact Or.inr hfn
            | none => rw [hC] at h; cases h

/-- C3: mergeProps returns a new map and shares no substructure with its
inputs except function values.  In the identity-tagged embedding (whose
semantics is pure, so inputs are never mutated by construction): when all
input identities lie below the fresh counter, every identity of the
result that also occurs in the inputs is the identity of a function value
of the inputs (functions are stored by direct reference; nested objects,
arrays, dates and regexes are re-created by `structuredClone` or by the
recursive merge with fresh identities), and the result is a newly
allocated object whose own identity occurs in no input. -/
theorem mergeProps_no_sharing (f : Nat) (inputs : List Value) (n : Nat)
    (v : Value) (n' : Nat)
    (h : mergeProps f inputs n = .ok v n')
    (hbelow : ∀ id ∈ idsOfInputs inputs, id < n) :
    (∀ id ∈ idsOf v, id ∈ idsOfInputs inputs → id ∈ fnIdsInputs inputs)
    ∧ ∃ i kvs, v = .vObj i kvs ∧ i ∉ idsOfInputs inputs := by
  obtain ⟨hle, hids⟩ := (merge_ids f).1 inputs n v n' h
  constructor
  · intro id hid hin
    rcases hids id hid with hfresh | hfn
    · exact absurd (hbelow id hin) (by omega)
    · exact hfn
  · cases f with
    | zero => cases h
    | succ f1 =>
      rw [mergeProps] at h
      cases hI : mergeInputs f1 [] inputs (n + 1) with
      | ok kvs n₁ =>
        rw [hI] at h
        injection h with h1 h2
        exact ⟨n, kvs, h1.symm, fun hin => absurd (hbelow n hin) (by omega)⟩
      | err => rw [hI] at h; cases h
      | fuel => rw [hI] at h; cases h

/-- Witness for `mergeProps_no_sharing` at a concrete input; the
additional equation exhibits a function value that is indeed kept by
reference (same identity) while the nested array and object are
re-created with fresh identities. -/
theorem mergeProps_no_sharing_witness :
    ((∀ id ∈ idsOf (Value.vObj 50 [("f", Value.vFn 1),
        ("a", Value.vArr 51 [Value.vNum 3]),
        ("o", Value.vObj 52 [("g", Value.vFn 5)])]),
      id ∈ idsOfInputs [Value.vObj 0 [("f", Value.vFn 1),
        ("a", Value.vArr 2 [Value.vNum 3]), ("o", Value.vObj 4 [("g", Value.vFn 5)])]] →
      id ∈ fnIdsInputs [Value.vObj 0 [("f", Value.vFn 1),
        ("a", Value.vArr 2 [Value.vNum 3]), ("o", Value.vObj 4 [("g", Value.vFn 5)])]])
    ∧ ∃ i kvs, Value.vObj 50 [("f", Value.vFn 1),
        ("a", Value.vArr 51 [Value.vNum 3]),
        ("o", Value.vObj 52 [("g", Value.vFn 5)])] = .vObj i kvs
      ∧ i ∉ idsOfInputs [Value.vObj 0 [("f", Value.vFn 1),
        ("a", Value.vArr 2 [Value.vNum 3]), ("o", Value.vObj 4 [("g", Value.vFn 5)])]]) :=
  mergeProps_no_sharing 10
    [Value.vObj 0 [("f", Value.vFn 1), ("a", Value.vArr 2 [Value.vNum 3]),
      ("o", Value.vObj 4 [("g", Value.vFn 5)])]] 50
    (Value.vObj 50 [("f", Value.vFn 1), ("a", Value.vArr 51 [Value.vNum 3]),
      ("o", Value.vObj 52 [("g", Value.vFn 5)])]) 53 rfl (by decide)

lemma hasKeyJS_false_lookup (acc : List (String × Value)) (k : String)
    (h : hasKeyJS acc k = false) : lookupJS acc k = .vUndefined := by
  rw [lookupJS]
  cases hf : acc.find? (fun p => p.1 == k) with
  | none => rfl
  | some p =>
    rw [hasKeyJS, hf] at h
    cases h

lemma isPlainObject_inv (v : Value) (h : isPlainObject v = true) :
    ∃ i kvs, v = Value.vObj i kvs := by
  cases v <;> simp [isPlainObject] at h ⊢

lemma insertKV_append_of_not_hasKey (acc : List (String × Value)) (k : String)
    (w : Value) (h : hasKeyJS acc k = false) : insertKV acc k w = acc ++ [(k, w)] := by
  induction acc with
  | nil => rfl
  | cons p rest ih =>
    obtain ⟨k₀, v₀⟩ := p
    by_cases hk : k₀ = k
    · subst hk
      rw [hasKeyJS_cons_self] at h
      cases h
    · rw [hasKeyJS_cons_ne k k₀ v₀ rest hk] at h
      rw [insertKV, if_neg (by simpa using hk), ih h]
      rfl

lemma hasKeyJS_false_of_mem (l : List (String × Value)) (k : String)
    (h : hasKeyJS l k = false) : ∀ p ∈ l, p.1 ≠ k := by
  induction l with
  | nil => intro p hp; cases hp
  | cons q rest ih =>
    obtain ⟨k₀, v₀⟩ := q
    intro p hp
    by_cases hk : k₀ = k
    · subst hk
      rw [hasKeyJS_cons_self] at h
      cases h
    · rw [hasKeyJS_cons_ne k k₀ v₀ rest hk] at h
      rcases List.mem_cons.mp hp with rfl | hp'
      · exact hk
      · exact ih h p hp'

lemma hasKeyJS_append_single (acc : List (String × Value)) (k k' : String)
    (w : Value) (hne : k ≠ k') (h : hasKeyJS acc k' = false) :
    hasKeyJS (acc ++ [(k, w)]) k' = false := by
  induction acc with
  | nil =>
    rw [List.nil_append, hasKeyJS_cons_ne k' k w [] hne]
    rfl
  | cons p rest ih =>
    obtain ⟨k₀, v₀⟩ := p
    by_cases hk : k₀ = k'
    · subst hk
      rw [hasKeyJS_cons_self] at h
      cases h
    · rw [hasKeyJS_cons_ne k' k₀ v₀ rest hk] at h
      rw [List.cons_append, hasKeyJS_cons_ne k' k₀ v₀ _ hk]
      exact ih h

lemma stripKVs_append (l₁ l₂ : List (String × Value)) :
    stripKVs (l₁ ++ l₂) = stripKVs l₁ ++ stripKVs l₂ := by
  induction l₁ with
  | nil => rfl
  | cons p rest ih =>
    obtain ⟨k, v⟩ := p
    simp [stripKVs, ih]

lemma strip_arr_inv (w : Value) (idA : Nat) (ys : List Value)
    (h : strip w = .vArr idA ys) : ∃ j zs, w = .vArr j zs := by
  cases w <;> simp [strip] at h <;> exact ⟨_, _, rfl⟩

/-- Normalisation: merging a single well-formed plain object (behind any
skipped first input) re-creates it up to identities, and the entry loop
over fresh well-formed entries appends their processed forms. -/
lemma merge_norm : ∀ f : Nat,
    (∀ x (i : Nat) kvs n v n', mergeProps f [x, .vObj i kvs] n = .ok v n' →
      skipInput x = true → wfKVs kvs = true →
      strip v = .vObj 0 (stripKVs kvs))
    ∧ (∀ acc es n out n', mergeEntries f acc es n = .ok out n' →
      wfKVs es = true → (∀ p ∈ es, hasKeyJS acc p.1 = false) →
      stripKVs out = stripKVs acc ++ stripKVs es) := by
  intro f
  induction f using Nat.strong_induction_on with
  | _ f ih =>
    constructor
    · intro x i kvs n v n' h hskip hwf
      cases f with
      | zero => cases h
      | succ f1 =>
        rw [mergeProps] at h
        cases hI : mergeInputs f1 [] [x, .vObj i kvs] (n + 1) with
        | ok out n₁ =>
          rw [hI] at h
          injection h with h1 h2
          subst h1
          cases f1 with
          | zero => cases hI
          | succ f2 =>
            rw [mergeInputs, if_pos hskip] at hI
            cases f2 with
            | zero => cases hI
            | succ f3 =>
              rw [mergeInputs,
                if_neg (by simp [skipInput, typeofObject, isArrayJS])] at hI
              cases hE : mergeEntries f3 [] (entriesOf (Value.vObj i kvs)) (n + 1) with
              | ok out₂ n₂ =>
                rw [hE] at hI
                cases f3 with
                | zero => cases hI
                | succ f4 =>
                  have hI' : EStep.ok out₂ n₂ = EStep.ok out n₁ := hI
                  injection hI' with hI1 hI2
                  have hnorm := (ih (f4 + 1) (by omega)).2 [] (entriesOf (Value.vObj i kvs))
                    (n + 1) out₂ n₂ hE (by simpa [entriesOf] using hwf)
                    (fun p _ => rfl)
                  simp only [entriesOf] at hnorm
                  rw [← hI1]
                  simp [strip, hnorm, stripKVs]
              | err => rw [hE] at hI; cases hI
              | fuel => rw [hE] at hI; cases hI
        | err => rw [hI] at h; cases h
        | fuel => rw [hI] at h; cases h
    · intro acc es n out n' h hwf hfresh
      cases f with
      | zero => cases h
      | succ f1 =>
        cases es with
        | nil =>
          have h' : EStep.ok acc n = EStep.ok out n' := h
          injection h' with h1 h2
          subst h1
          simp [stripKVs]
        | cons e rest =>
          obtain ⟨k, v⟩ := e
          rw [wfKVs] at hwf
          simp only [Bool.and_eq_true, Bool.not_eq_true'] at hwf
          obtain ⟨⟨hkrest, hwfv⟩, hwfrest⟩ := hwf
          have hkacc : hasKeyJS acc k = false := hfresh (k, v) (by simp)
          rw [mergeEntries] at h
          by_cases h1 : (isPlainObject v && !isArrayJS v) = true
          · obtain ⟨i', kvs', rfl⟩ :=
              isPlainObject_inv v ((Bool.and_eq_true _ _).mp h1).1
            rw [if_pos h1] at h
            cases hM : mergeProps f1 [lookupJS acc k, .vObj i' kvs'] n with
            | ok w n₁ =>
              rw [hM] at h
              rw [hasKeyJS_false_lookup acc k hkacc] at hM
              have hw := (ih f1 (by omega)).1 .vUndefined i' kvs' n w n₁ hM rfl
                (by simpa [wfVal] using hwfv)
              have h' : mergeEntries f1 (insertKV acc k w) rest n₁ = EStep.ok out n' := h
              rw [insertKV_append_of_not_hasKey acc k w hkacc] at h'
              have hrest := (ih f1 (by omega)).2 (acc ++ [(k, w)]) rest n₁ out n' h'
                hwfrest (fun p hp => hasKeyJS_append_single acc k p.1 w
                  (fun he => hasKeyJS_false_of_mem rest k hkrest p hp he.symm)
                  (hfresh p (List.mem_cons_of_mem _ hp)))
              rw [hrest, stripKVs_append]
              simp [stripKVs, hw, strip]
            | err => rw [hM] at h; cases h
            | fuel => rw [hM] at h; cases h
          · rw [if_neg h1] at h
            by_cases h2 : isFunctionJS v = true
            · rw [if_pos h2] at h
              rw [insertKV_append_of_not_hasKey acc k v hkacc] at h
              have hrest := (ih f1 (by omega)).2 (acc ++ [(k, v)]) rest n out n' h
                hwfrest (fun p hp => hasKeyJS_append_single acc k p.1 v
                  (fun he => hasKeyJS_false_of_mem rest k hkrest p hp he.symm)
                  (hfresh p (List.mem_cons_of_mem _ hp)))
              rw [hrest, stripKVs_append]
              simp [stripKVs]
            · rw [if_neg h2] at h
              cases hC : sclone n v with
              | some p =>
                obtain ⟨w, n₁⟩ := p
                rw [hC] at h
                obtain ⟨-, hstrip, -, -⟩ := scloneOk.1 _ _ _ _ hC
                have h' : mergeEntries f1 (insertKV acc k w) rest n₁ = EStep.ok out n' := h
                rw [insertKV_append_of_not_hasKey acc k w hkacc] at h'
                have hrest := (ih f1 (by omega)).2 (acc ++ [(k, w)]) rest n₁ out n' h'
                  hwfrest (fun p hp => hasKeyJS_append_single acc k p.1 w
                    (fun he => hasKeyJS_false_of_mem rest k hkrest p hp he.symm)
                    (hfresh p (List.mem_cons_of_mem _ hp)))
                rw [hrest, stripKVs_append]
                simp [stripKVs, hstrip]
              | none => rw [hC] at h; cases h

/-- C4: arrays and plain maps fully replace each other.  (a) If the last
input's last entry for key `k` is an array, the result holds a clone of
that array at `k`, fully replacing whatever was previously accumulated
there (even a nested map, since the earlier accumulated value is simply
overwritten by the clone).  (b) A plain-map value arriving after an array
fully replaces the array: merging `{k: array}` then `{k: m}` leaves at
`k` a clone of the later map `m` (equal up to identities), with no keys
contributed by the array. -/
theorem mergeProps_array_map_replacement :
    (∀ f inputs (i idA : Nat) (kvs : List (String × Value)) k xs n v n',
      mergeProps f (inputs ++ [.vObj i (kvs ++ [(k, .vArr idA xs)])]) n = .ok v n' →
      hasKeyJS (entriesOf v) k = true
      ∧ strip (lookupJS (entriesOf v) k) = strip (.vArr idA xs))
    ∧ (∀ f (i₁ i₂ i₃ idA : Nat) xs (m : List (String × Value)) k n v n',
      wfKVs m = true →
      mergeProps f [.vObj i₁ [(k, .vArr idA xs)], .vObj i₂ [(k, .vObj i₃ m)]] n = .ok v n' →
      strip (lookupJS (entriesOf v) k) = .vObj 0 (stripKVs m)) := by
  constructor
  · intro f inputs i idA kvs k xs n v n' h
    cases f with
    | zero => cases h
    | succ f1 =>
      rw [mergeProps] at h
      cases hI : mergeInputs f1 [] (inputs ++ [.vObj i (kvs ++ [(k, .vArr idA xs)])]) (n + 1) with
      | ok out n₁ =>
        rw [hI] at h
        injection h with h1 h2
        obtain ⟨f₂, acc₂, n₂, hE⟩ := mergeInputs_last_obj f1 [] inputs i _ (n + 1) out n₁ hI
        obtain ⟨n₃, w', n₄, hC, hl, hk⟩ :=
          mergeEntries_last_clone f₂ acc₂ kvs k (.vArr idA xs) n₂ out n₁ rfl rfl hE
        obtain ⟨-, hstrip, -, -⟩ := scloneOk.1 _ _ _ _ hC
        rw [← h1]
        refine ⟨by simpa [entriesOf] using hk, ?_⟩
        rw [show entriesOf (Value.vObj n out) = out from rfl, hl]
        exact hstrip
      | err => rw [hI] at h; cases h
      | fuel => rw [hI] at h; cases h
  · intro f i₁ i₂ i₃ idA xs m k n v n' hwf h
    cases f with
    | zero => cases h
    | succ f1 =>
      rw [mergeProps] at h
      cases hI : mergeInputs f1 []
          [.vObj i₁ [(k, .vArr idA xs)], .vObj i₂ [(k, .vObj i₃ m)]] (n + 1) with
      | ok out n₁ =>
        rw [hI] at h
        injection h with h1 h2
        cases f1 with
        | zero => cases hI
        | succ f2 =>
          rw [mergeInputs, if_neg (by simp [skipInput, typeofObject, isArrayJS])] at hI
          cases hE1 : mergeEntries f2 [] (entriesOf (Value.vObj i₁ [(k, .vArr idA xs)])) (n + 1) with
          | ok acc₁ n₂ =>
            rw [hE1] at hI
            cases f2 with
            | zero => cases hE1
            | succ f3 =>
              rw [show entriesOf (Value.vObj i₁ [(k, .vArr idA xs)])
                  = [(k, .vArr idA xs)] from rfl] at hE1
              rw [mergeEntries, if_neg (by simp [isPlainObject]),
                if_neg (by simp [isFunctionJS])] at hE1
              cases hC : sclone (n + 1) (Value.vArr idA xs) with
              | some p =>
                obtain ⟨w₁, n₃⟩ := p
                rw [hC] at hE1
                cases f3 with
                | zero => cases hE1
                | succ f4 =>
                  have hE1' : EStep.ok (insertKV [] k w₁) n₃ = EStep.ok acc₁ n₂ := hE1
                  injection hE1' with hA1 hA2
                  obtain ⟨-, hstrip1, -, -⟩ := scloneOk.1 _ _ _ _ hC
                  obtain ⟨j, zs, rfl⟩ := strip_arr_inv w₁ 0 (stripList xs) hstrip1
                  rw [← hA1, ← hA2] at hI
                  have hIr : mergeInputs (f4 + 1 + 1) (insertKV [] k (.vArr j zs))
                      [Value.vObj i₂ [(k, .vObj i₃ m)]] n₃ = EStep.ok out n₁ := hI
                  cases hI2 : mergeInputs (f4 + 1 + 1) (insertKV [] k (.vArr j zs))
                      [Value.vObj i₂ [(k, .vObj i₃ m)]] n₃ with
                  | ok out₂ n₄ =>
                    rw [hI2] at hIr
                    have hI' : EStep.ok out₂ n₄ = EStep.ok out n₁ := hIr
                    injection hI' with hB1 hB2
                    rw [mergeInputs,
                      if_neg (by simp [skipInput, typeofObject, isArrayJS])] at hI2
                    cases hE2 : mergeEntries (f4 + 1) (insertKV [] k (.vArr j zs))
                        (entriesOf (Value.vObj i₂ [(k, .vObj i₃ m)])) n₃ with
                    | ok out₃ n₅ =>
                      rw [hE2] at hI2
                      rw [show entriesOf (Value.vObj i₂ [(k, .vObj i₃ m)])
                          = [(k, .vObj i₃ m)] from rfl] at hE2
                      rw [mergeEntries, if_pos (by simp [isPlainObject, isArrayJS])] at hE2
                      cases hM : mergeProps f4 [lookupJS (insertKV [] k (.vArr j zs)) k,
                          .vObj i₃ m] n₃ with
                      | ok w n₆ =>
                        rw [hM] at hE2
                        rw [show lookupJS (insertKV [] k (.vArr j zs)) k
                            = .vArr j zs from lookupJS_insertKV_self [] k _] at hM
                        have hw := (merge_norm f4).1 (.vArr j zs) i₃ m n₃ w n₆ hM
                          (by simp [skipInput, typeofObject, isArrayJS]) hwf
                        cases f4 with
                        | zero => cases hE2
                        | succ f5 =>
                          have hE2' : EStep.ok (insertKV (insertKV [] k (.vArr j zs)) k w) n₆
                              = EStep.ok out₃ n₅ := hE2
                          injection hE2' with hC1 hC2
                          have hI2' : EStep.ok out₃ n₅ = EStep.ok out₂ n₄ := hI2
                          injection hI2' with hD1 hD2
                          rw [← h1, show entriesOf (Value.vObj n out) = out from rfl]
                          rw [← hB1, ← hD1, ← hC1]
                          rw [show insertKV (insertKV [] k (.vArr j zs)) k w
                              = [(k, w)] from by simp [insertKV]]
                          rw [lookupJS_cons_self]
                          exact hw
                      | err => rw [hM] at hE2; cases hE2
                      | fuel => rw [hM] at hE2; cases hE2
                    | err => rw [hE2] at hI2; cases hI2
                    | fuel => rw [hE2] at hI2; cases hI2
                  | err => rw [hI2] at hIr; cases hIr
                  | fuel => rw [hI2] at hIr; cases hIr
              | none => rw [hC] at hE1; cases hE1
          | err => rw [hE1] at hI; cases hI
          | fuel => rw [hE1] at hI; cases hI
      | err => rw [hI] at h; cases h
      | fuel => rw [hI] at h; cases h

/-- Witness for `mergeProps_array_map_replacement` at the concrete inputs
of the test suite (object-then-array and array-then-object). -/
theorem mergeProps_array_map_replacement_witness :
    (hasKeyJS (entriesOf (Value.vObj 100 [("key1", Value.vArr 102 [Value.vStr "subkey"])])) "key1" = true
      ∧ strip (lookupJS (entriesOf (Value.vObj 100 [("key1", Value.vArr 102 [Value.vStr "subkey"])])) "key1")
        = strip (Value.vArr 3 [Value.vStr "subkey"]))
    ∧ strip (lookupJS (entriesOf (Value.vObj 100 [("key1", Value.vObj 102 [("subkey", Value.vStr "one")])])) "key1")
        = Value.vObj 0 (stripKVs [("subkey", Value.vStr "one")]) :=
  ⟨mergeProps_array_map_replacement.1 10 [Value.vObj 0 [("key1", Value.vObj 1 [("subkey", Value.vStr "one")])]]
      2 3 [] "key1" [Value.vStr "subkey"] 100
      (Value.vObj 100 [("key1", Value.vArr 102 [Value.vStr "subkey"])]) 103 rfl,
   mergeProps_array_map_replacement.2 10 0 2 3 1 [Value.vStr "subkey"]
      [("subkey", Value.vStr "one")] "key1" 100
      (Value.vObj 100 [("key1", Value.vObj 102 [("subkey", Value.vStr "one")])]) 103 rfl rfl⟩

/-! ### Size and invariant lemmas for fuel adequacy -/

lemma len_le_esize (es : List (String × Value)) : es.length ≤ esize es := by
  induction es with
  | nil => simp [esize]
  | cons e rest ih =>
    obtain ⟨k, v⟩ := e
    rw [esize]
    simp only [List.length_cons]
    omega

lemma esize_entriesOf_le_vsize (i : Value) : esize (entriesOf i) ≤ vsize i := by
  cases i <;> simp [entriesOf, esize, vsize]

lemma esize_append (l₁ l₂ : List (String × Value)) :
    esize (l₁ ++ l₂) = esize l₁ + esize l₂ := by
  induction l₁ with
  | nil => simp [esize]
  | cons e rest ih =>
    obtain ⟨k, v⟩ := e
    rw [List.cons_append, esize, esize, ih]
    omega

lemma vsize_lookup_le (acc : List (String × Value)) (k : String)
    (h : hasKeyJS acc k = true) : 1 + vsize (lookupJS acc k) ≤ esize acc := by
  induction acc with
  | nil => cases h
  | cons p rest ih =>
    obtain ⟨k₀, v₀⟩ := p
    by_cases hk : k₀ = k
    · subst hk
      rw [lookupJS_cons_self, esize]
      omega
    · rw [hasKeyJS_cons_ne k k₀ v₀ rest hk] at h
      rw [lookupJS_cons_ne k k₀ v₀ rest hk, esize]
      have := ih h
      omega

lemma esize_insertKV_present (acc : List (String × Value)) (k : String) (w : Value)
    (h : hasKeyJS acc k = true) :
    esize (insertKV acc k w) + vsize (lookupJS acc k) = esize acc + vsize w := by
  induction acc with
  | nil => cases h
  | cons p rest ih =>
    obtain ⟨k₀, v₀⟩ := p
    by_cases hk : k₀ = k
    · subst hk
      rw [lookupJS_cons_self, insertKV, if_pos (by simp), esize, esize]
      omega
    · rw [hasKeyJS_cons_ne k k₀ v₀ rest hk] at h
      rw [lookupJS_cons_ne k k₀ v₀ rest hk, insertKV, if_neg (by simpa using hk),
        esize, esize]
      have := ih h
      omega

lemma esize_insertKV_absent (acc : List (String × Value)) (k : String) (w : Value)
    (h : hasKeyJS acc k = false) :
    esize (insertKV acc k w) = esize acc + 1 + vsize w := by
  rw [insertKV_append_of_not_hasKey acc k w h, esize_append, esize, esize]
  omega

lemma esize_insertKV_le (acc : List (String × Value)) (k : String) (w : Value) :
    esize (insertKV acc k w) ≤ esize acc + 1 + vsize w := by
  cases h : hasKeyJS acc k with
  | true =>
    have h1 := esize_insertKV_present acc k w h
    omega
  | false =>
    rw [esize_insertKV_absent acc k w h]

lemma vsize_strip :
    (∀ v : Value, vsize (strip v) = vsize v)
    ∧ (∀ kvs : List (String × Value), esize (stripKVs kvs) = esize kvs)
    ∧ (∀ xs : List Value, True) := by
  refine strip.mutual_induct
    (fun v => vsize (strip v) = vsize v)
    (fun kvs => esize (stripKVs kvs) = esize kvs)
    (fun xs => True)
    ?_ ?_ ?_ ?_ ?_ ?_ ?_ ?_ ?_ ?_ ?_ ?_ ?_ ?_
  · intro id xs _
    simp [strip, vsize]
  · intro id kvs ih
    simp [strip, vsize, ih]
  · intro id t
    simp [strip, vsize]
  · intro id s
    simp [strip, vsize]
  · intro id
    simp [strip, vsize]
  · intro s
    simp [strip, vsize]
  · intro i
    simp [strip, vsize]
  · intro b
    simp [strip, vsize]
  · simp [strip, vsize]
  · simp [strip, vsize]
  · trivial
  · intro x rest _ _
    trivial
  · simp [stripKVs, esize]
  · intro k v rest ih1 ih2
    simp only [stripKVs, esize]
    omega

lemma mergedOK_lookup (acc : List (String × Value)) (k : String)
    (h : mergedOKKVs acc = true) : mergedOK (lookupJS acc k) = true := by
  induction acc with
  | nil => rfl
  | cons p rest ih =>
    obtain ⟨k₀, v₀⟩ := p
    rw [mergedOKKVs, Bool.and_eq_true] at h
    by_cases hk : k₀ = k
    · subst hk
      rw [lookupJS_cons_self]
      exact h.1
    · rw [lookupJS_cons_ne k k₀ v₀ rest hk]
      exact ih h.2

lemma mergedOKKVs_insertKV (acc : List (String × Value)) (k : String) (w : Value)
    (hacc : mergedOKKVs acc = true) (hw : mergedOK w = true) :
    mergedOKKVs (insertKV acc k w) = true := by
  induction acc with
  | nil =>
    rw [insertKV, mergedOKKVs, mergedOKKVs]
    simp [hw]
  | cons p rest ih =>
    obtain ⟨k₀, v₀⟩ := p
    rw [mergedOKKVs, Bool.and_eq_true] at hacc
    by_cases hk : k₀ = k
    · subst hk
      rw [insertKV, if_pos (by simp), mergedOKKVs]
      simp [hw, hacc.2]
    · rw [insertKV, if_neg (by simpa using hk), mergedOKKVs]
      simp [hacc.1, ih hacc.2]

lemma fnFree_mergedOK :
    (∀ v : Value, fnFree v = true → mergedOK v = true)
    ∧ (∀ kvs : List (String × Value), fnFreeKVs kvs = true → mergedOKKVs kvs = true)
    ∧ (∀ xs : List Value, True) := by
  refine fnFree.mutual_induct
    (fun v => fnFree v = true → mergedOK v = true)
    (fun kvs => fnFreeKVs kvs = true → mergedOKKVs kvs = true)
    (fun xs => True)
    ?_ ?_ ?_ ?_ ?_ ?_ ?_ ?_
  · intro id h
    cases h
  · intro id xs _ h
    rw [fnFree] at h
    rw [mergedOK]
    exact h
  · intro id kvs ih h
    rw [fnFree] at h
    rw [mergedOK]
    exact ih h
  · intro v h1 h2 h3 _
    cases v with
    | vFn id => exact (h1 _ rfl).elim
    | vArr id xs => exact (h2 _ _ rfl).elim
    | vObj id kvs => exact (h3 _ _ rfl).elim
    | vStr s => rfl
    | vNum i => rfl
    | vBool b => rfl
    | vNull => rfl
    | vUndefined => rfl
    | vDate id t => rfl
    | vRegex id s => rfl
  · trivial
  · intro x rest _ _
    trivial
  · intro _
    rfl
  · intro k v rest ih1 ih2 h
    rw [fnFreeKVs, Bool.and_eq_true] at h
    rw [mergedOKKVs]
    simp [ih1 h.1, ih2 h.2]

lemma mergedOK_domVal :
    (∀ v : Value, mergedOK v = true → domVal v = true)
    ∧ (∀ kvs : List (String × Value), mergedOKKVs kvs = true → domKVs kvs = true) := by
  refine mergedOK.mutual_induct
    (fun v => mergedOK v = true → domVal v = true)
    (fun kvs => mergedOKKVs kvs = true → domKVs kvs = true)
    ?_ ?_ ?_ ?_ ?_ ?_
  · intro id _
    rfl
  · intro id kvs ih h
    rw [mergedOK] at h
    rw [domVal]
    exact ih h
  · intro id xs h
    rw [mergedOK] at h
    rw [domVal]
    exact h
  · intro v h1 h2 h3 _
    cases v with
    | vFn id => exact (h1 _ rfl).elim
    | vObj id kvs => exact (h2 _ _ rfl).elim
    | vArr id xs => exact (h3 _ _ rfl).elim
    | vStr s => rfl
    | vNum i => rfl
    | vBool b => rfl
    | vNull => rfl
    | vUndefined => rfl
    | vDate id t => rfl
    | vRegex id s => rfl
  · intro _
    rfl
  · intro k v rest ih1 ih2 h
    rw [mergedOKKVs, Bool.and_eq_true] at h
    rw [domKVs]
    simp [ih1 h.1, ih2 h.2]

lemma mergedOK_domInput (v : Value) (h : mergedOK v = true) : domInput v = true := by
  rw [domInput]
  cases v with
  | vObj id kvs =>
    rw [mergedOK] at h
    simp [entriesOf, mergedOK_domVal.2 kvs h]
  | vArr id xs => simp [skipInput, typeofObject, isArrayJS]
  | vFn id => simp [skipInput, typeofObject]
  | vStr s => simp [skipInput, typeofObject]
  | vNum i => simp [skipInput, typeofObject]
  | vBool b => simp [skipInput, typeofObject]
  | vUndefined => simp [skipInput, typeofObject]
  | vNull => simp [entriesOf, domKVs]
  | vDate id t => simp [entriesOf, domKVs]
  | vRegex id s => simp [entriesOf, domKVs]

lemma domVal_clone_fnFree (v : Value) (hd : domVal v = true)
    (h1 : isPlainObject v = false) (h2 : isFunctionJS v = false) :
    fnFree v = true := by
  cases v with
  | vArr id xs =>
    rw [domVal] at hd
    rw [fnFree]
    exact hd
  | vObj id kvs => cases h1
  | vFn id => cases h2
  | vStr s => rfl
  | vNum i => rfl
  | vBool b => rfl
  | vNull => rfl
  | vUndefined => rfl
  | vDate id t => rfl
  | vRegex id s => rfl

lemma msizeTerm_le (x : Value) :
    (if skipInput x = true then 0 else esize (entriesOf x)) ≤ vsize x := by
  cases hs : skipInput x
  · simpa using esize_entriesOf_le_vsize x
  · simp

/-- Size bound: a successful merge result is no larger than the entry
mass of its inputs. -/
lemma merge_size : ∀ f : Nat,
    (∀ inputs n v n', mergeProps f inputs n = .ok v n' →
      vsize v ≤ 1 + msize inputs)
    ∧ (∀ acc inputs n out n', mergeInputs f acc inputs n = .ok out n' →
      esize out ≤ esize acc + msize inputs)
    ∧ (∀ acc es n out n', mergeEntries f acc es n = .ok out n' →
      esize out ≤ esize acc + esize es) := by
  intro f
  induction f with
  | zero =>
    refine ⟨?_, ?_, ?_⟩
    · intro inputs n v n' h
      cases h
    · intro acc inputs n out n' h
      cases h
    · intro acc es n out n' h
      cases h
  | succ f ih =>
    obtain ⟨ihM, ihI, ihE⟩ := ih
    refine ⟨?_, ?_, ?_⟩
    · intro inputs n v n' h
      rw [mergeProps] at h
      cases hI : mergeInputs f [] inputs (n + 1) with
      | ok kvs n₁ =>
        rw [hI] at h
        have h' : MRes.ok (Value.vObj n kvs) n₁ = MRes.ok v n' := h
        injection h' with h1 h2
        have := ihI _ _ _ _ _ hI
        rw [← h1, vsize]
        simp only [esize] at this
        omega
      | err => rw [hI] at h; cases h
      | fuel => rw [hI] at h; cases h
    · intro acc inputs n out n' h
      cases inputs with
      | nil =>
        have h' : EStep.ok acc n = EStep.ok out n' := h
        injection h' with h1 h2
        subst h1
        simp [msize]
      | cons i rest =>
        rw [mergeInputs] at h
        rw [msize]
        by_cases hs : skipInput i = true
        · rw [if_pos hs] at h
          rw [if_pos hs]
          have := ihI _ _ _ _ _ h
          omega
        · rw [if_neg hs] at h
          rw [if_neg hs]
          cases hE : mergeEntries f acc (entriesOf i) n with
          | ok acc₁ n₁ =>
            rw [hE] at h
            have h' : mergeInputs f acc₁ rest n₁ = EStep.ok out n' := h
            have hb1 := ihE _ _ _ _ _ hE
            have hb2 := ihI _ _ _ _ _ h'
            omega
          | err => rw [hE] at h; cases h
          | fuel => rw [hE] at h; cases h
    · intro acc es n out n' h
      cases es with
      | nil =>
        have h' : EStep.ok acc n = EStep.ok out n' := h
        injection h' with h1 h2
        subst h1
        simp [esize]
      | cons e rest =>
        obtain ⟨k, v⟩ := e
        rw [mergeEntries] at h
        rw [esize]
        by_cases h1 : (isPlainObject v && !isArrayJS v) = true
        · rw [if_pos h1] at h
          cases hM : mergeProps f [lookupJS acc k, v] n with
          | ok w n₁ =>
            rw [hM] at h
            have h' : mergeEntries f (insertKV acc k w) rest n₁
                = EStep.ok out n' := h
            have hw := ihM _ _ _ _ hM
            have hrest := ihE _ _ _ _ _ h'
            obtain ⟨i', kvs', rfl⟩ :=
              isPlainObject_inv v ((Bool.and_eq_true _ _).mp h1).1
            have hmsize : msize [lookupJS acc k, Value.vObj i' kvs']
                ≤ vsize (lookupJS acc k) + esize kvs' := by
              have hb := msizeTerm_le (lookupJS acc k)
              have h2 : (if skipInput (Value.vObj i' kvs') = true then 0
                  else esize (entriesOf (Value.vObj i' kvs'))) = esize kvs' := by
                simp [skipInput, typeofObject, isArrayJS, entriesOf]
              rw [msize, msize, msize, h2]
              omega
            have hv : vsize (Value.vObj i' kvs') = 1 + esize kvs' := rfl
            cases hk : hasKeyJS acc k with
            | true =>
              have heq := esize_insertKV_present acc k w hk
              omega
            | false =>
              have heq := esize_insertKV_absent acc k w hk
              have hvu : vsize (lookupJS acc k) = 0 := by
                rw [hasKeyJS_false_lookup acc k hk]
                rfl
              omega
          | err => rw [hM] at h; cases h
          | fuel => rw [hM] at h; cases h
        · rw [if_neg h1] at h
          by_cases h2 : isFunctionJS v = true
          · rw [if_pos h2] at h
            have hrest := ihE _ _ _ _ _ h
            have hins := esize_insertKV_le acc k v
            have hvfn : vsize v = 0 := by
              cases v <;> first | rfl | simp [isFunctionJS] at h2
            omega
          · rw [if_neg h2] at h
            cases hC : sclone n v with
            | some p =>
              obtain ⟨w, n₁⟩ := p
              rw [hC] at h
              have h' : mergeEntries f (insertKV acc k w) rest n₁
                  = EStep.ok out n' := h
              have hrest := ihE _ _ _ _ _ h'
              have hins := esize_insertKV_le acc k w
              obtain ⟨-, hstrip, -, -⟩ := scloneOk.1 _ _ _ _ hC
              have hvw : vsize w = vsize v := by
                rw [← vsize_strip.1 w, hstrip, vsize_strip.1 v]
              omega
            | none => rw [hC] at h; cases h

lemma sq_mono (b₁ b₂ : Nat) (h : b₁ ≤ b₂) : b₁ * b₁ ≤ b₂ * b₂ :=
  Nat.mul_le_mul h h

lemma sq_mono_succ (b₁ b₂ : Nat) (h : b₁ + 1 ≤ b₂) :
    b₁ * b₁ + 2 * b₁ + 1 ≤ b₂ * b₂ := by
  have h2 := Nat.mul_le_mul h h
  have h3 : (b₁ + 1) * (b₁ + 1) = b₁ * b₁ + 2 * b₁ + 1 := by ring
  omega

lemma vsize_lookup_bound (acc : List (String × Value)) (k : String) :
    vsize (lookupJS acc k) ≤ esize acc := by
  cases h : hasKeyJS acc k with
  | true =>
    have := vsize_lookup_le acc k h
    omega
  | false =>
    have h0 : vsize (lookupJS acc k) = 0 := by
      rw [hasKeyJS_false_lookup acc k h]
      rfl
    omega

lemma msize_pair_le (acc : List (String × Value)) (k : String)
    (i' : Nat) (kvs' : List (String × Value)) :
    msize [lookupJS acc k, Value.vObj i' kvs']
      ≤ vsize (lookupJS acc k) + esize kvs' := by
  have hb := msizeTerm_le (lookupJS acc k)
  have h2 : (if skipInput (Value.vObj i' kvs') = true then 0
      else esize (entriesOf (Value.vObj i' kvs'))) = esize kvs' := by
    simp [skipInput, typeofObject, isArrayJS, entriesOf]
  rw [msize, msize, msize, h2]
  omega

/-- Fuel adequacy: on the documented domain every merge terminates, for some
finite fuel, with a result satisfying the accumulator invariant.  The proof
is a strong induction on a quadratic bound on the remaining work (the merge
re-normalises accumulated values, so the total work is quadratic in the
entry mass of the inputs). -/
lemma merge_total : ∀ N : Nat,
    (∀ acc es n,
      (esize acc + esize es) * (esize acc + esize es) + esize es ≤ N →
      mergedOKKVs acc = true → domKVs es = true →
      ∃ f acc' n', mergeEntries f acc es n = EStep.ok acc' n'
        ∧ mergedOKKVs acc' = true)
    ∧ (∀ acc inputs n,
      (esize acc + vsizes inputs) * (esize acc + vsizes inputs)
        + vsizes inputs + inputs.length ≤ N →
      mergedOKKVs acc = true → domInputs inputs = true →
      ∃ f acc' n', mergeInputs f acc inputs n = EStep.ok acc' n'
        ∧ mergedOKKVs acc' = true)
    ∧ (∀ inputs n,
      vsizes inputs * vsizes inputs + vsizes inputs + inputs.length + 1 ≤ N →
      domInputs inputs = true →
      ∃ f v n', mergeProps f inputs n = MRes.ok v n' ∧ mergedOK v = true) := by
  intro N
  induction N using Nat.strong_induction_on with
  | h N ih =>
    refine ⟨?_, ?_, ?_⟩
    · intro acc es n hμ hacc hdom
      cases es with
      | nil => exact ⟨1, acc, n, rfl, hacc⟩
      | cons e rest =>
        obtain ⟨k, v⟩ := e
        rw [domKVs, Bool.and_eq_true] at hdom
        obtain ⟨hdv, hdrest⟩ := hdom
        by_cases h1 : (isPlainObject v && !isArrayJS v) = true
        · obtain ⟨i', kvs', rfl⟩ :=
            isPlainObject_inv v ((Bool.and_eq_true _ _).mp h1).1
          have hesq : esize ((k, Value.vObj i' kvs') :: rest)
              = 1 + vsize (Value.vObj i' kvs') + esize rest := by
            rw [esize]
          have hvobj : vsize (Value.vObj i' kvs') = 1 + esize kvs' := rfl
          have hvz : vsizes [lookupJS acc k, Value.vObj i' kvs']
              = vsize (lookupJS acc k) + (vsize (Value.vObj i' kvs') + 0) := rfl
          have hlen2 : ([lookupJS acc k, Value.vObj i' kvs'] : List Value).length
              = 2 := rfl
          have hvl := vsize_lookup_bound acc k
          have hbB : vsizes [lookupJS acc k, Value.vObj i' kvs'] + 1
              ≤ esize acc + esize ((k, Value.vObj i' kvs') :: rest) := by
            omega
          have hsqM := sq_mono_succ _ _ hbB
          have hltM : vsizes [lookupJS acc k, Value.vObj i' kvs']
                * vsizes [lookupJS acc k, Value.vObj i' kvs']
              + vsizes [lookupJS acc k, Value.vObj i' kvs']
              + ([lookupJS acc k, Value.vObj i' kvs'] : List Value).length + 1
              < N := by omega
          have hd1 : domInput (lookupJS acc k) = true :=
            mergedOK_domInput _ (mergedOK_lookup acc k hacc)
          have hd2 : domInput (Value.vObj i' kvs') = true := by
            rw [domVal] at hdv
            rw [domInput]
            simp [skipInput, typeofObject, isArrayJS, entriesOf, hdv]
          have hdomM : domInputs [lookupJS acc k, Value.vObj i' kvs'] = true := by
            simp [domInputs, hd1, hd2]
          obtain ⟨f₁, w, n₁, hM, hwOK⟩ :=
            (ih _ hltM).2.2 [lookupJS acc k, Value.vObj i' kvs'] n
              (Nat.le_refl _) hdomM
          have hwsize := (merge_size f₁).1 _ _ _ _ hM
          have hmsz := msize_pair_le acc k i' kvs'
          have hins : esize (insertKV acc k w) ≤ esize acc + 2 + esize kvs' := by
            cases hk : hasKeyJS acc k with
            | true =>
              have heq := esize_insertKV_present acc k w hk
              have hv1 := vsize_lookup_le acc k hk
              omega
            | false =>
              have heq := esize_insertKV_absent acc k w hk
              have hvu : vsize (lookupJS acc k) = 0 := by
                rw [hasKeyJS_false_lookup acc k hk]
                rfl
              omega
          have hbB' : esize (insertKV acc k w) + esize rest
              ≤ esize acc + esize ((k, Value.vObj i' kvs') :: rest) := by
            omega
          have hsqE := sq_mono _ _ hbB'
          have hltE : (esize (insertKV acc k w) + esize rest)
                * (esize (insertKV acc k w) + esize rest) + esize rest < N := by
            omega
          have hOKins := mergedOKKVs_insertKV acc k w hacc hwOK
          obtain ⟨f₂, acc', n', hE₂, hOK'⟩ :=
            (ih _ hltE).1 (insertKV acc k w) rest n₁ (Nat.le_refl _) hOKins hdrest
          have hM' : mergeProps (max f₁ f₂) [lookupJS acc k, Value.vObj i' kvs'] n
              = MRes.ok w n₁ :=
            ((merge_mono f₁ (max f₁ f₂) (Nat.le_max_left f₁ f₂)).1
              [lookupJS acc k, Value.vObj i' kvs'] n
              (by rw [hM]; intro hc; cases hc)).trans hM
          have hE₂' : mergeEntries (max f₁ f₂) (insertKV acc k w) rest n₁
              = EStep.ok acc' n' :=
            ((merge_mono f₂ (max f₁ f₂) (Nat.le_max_right f₁ f₂)).2.2
              (insertKV acc k w) rest n₁
              (by rw [hE₂]; intro hc; cases hc)).trans hE₂
          refine ⟨max f₁ f₂ + 1, acc', n', ?_, hOK'⟩
          rw [mergeEntries, if_pos h1, hM']
          exact hE₂'
        · by_cases h2 : isFunctionJS v = true
          · have hvOK : mergedOK v = true := by
              cases v <;> first | rfl | simp [isFunctionJS] at h2
            have hv0 : vsize v = 0 := by
              cases v <;> first | rfl | simp [isFunctionJS] at h2
            have hesq : esize ((k, v) :: rest) = 1 + vsize v + esize rest := by
              rw [esize]
            have hins := esize_insertKV_le acc k v
            have hbB' : esize (insertKV acc k v) + esize rest
                ≤ esize acc + esize ((k, v) :: rest) := by omega
            have hsqE := sq_mono _ _ hbB'
            have hltE : (esize (insertKV acc k v) + esize rest)
                  * (esize (insertKV acc k v) + esize rest) + esize rest < N := by
              omega
            have hOKins := mergedOKKVs_insertKV acc k v hacc hvOK
            obtain ⟨f₂, acc', n', hE₂, hOK'⟩ :=
              (ih _ hltE).1 (insertKV acc k v) rest n (Nat.le_refl _) hOKins hdrest
            refine ⟨f₂ + 1, acc', n', ?_, hOK'⟩
            rw [mergeEntries, if_neg h1, if_pos h2]
            exact hE₂
          · have h1' : isPlainObject v = false := by
              cases hp : isPlainObject v with
              | false => rfl
              | true =>
                exfalso
                obtain ⟨i', kvs', rfl⟩ := isPlainObject_inv v hp
                exact h1 (by simp [isPlainObject, isArrayJS])
            have h2' : isFunctionJS v = false := by
              cases hf : isFunctionJS v with
              | false => rfl
              | true => exact absurd hf h2
            have hfn : fnFree v = true := domVal_clone_fnFree v hdv h1' h2'
            obtain ⟨w, n₁, hC⟩ := scloneSome.1 n v hfn
            have hwOK : mergedOK w = true :=
              fnFree_mergedOK.1 w (scloneOk.1 _ _ _ _ hC).2.2.1
            have hv0 : vsize v = 0 := by
              cases v <;> first | rfl | simp [isPlainObject] at h1'
            obtain ⟨-, hstrip, -, -⟩ := scloneOk.1 _ _ _ _ hC
            have hvw : vsize w = vsize v := by
              rw [← vsize_strip.1 w, hstrip, vsize_strip.1 v]
            have hesq : esize ((k, v) :: rest) = 1 + vsize v + esize rest := by
              rw [esize]
            have hins := esize_insertKV_le acc k w
            have hbB' : esize (insertKV acc k w) + esize rest
                ≤ esize acc + esize ((k, v) :: rest) := by omega
            have hsqE := sq_mono _ _ hbB'
            have hltE : (esize (insertKV acc k w) + esize rest)
                  * (esize (insertKV acc k w) + esize rest) + esize rest < N := by
              omega
            have hOKins := mergedOKKVs_insertKV acc k w hacc hwOK
            obtain ⟨f₂, acc', n', hE₂, hOK'⟩ :=
              (ih _ hltE).1 (insertKV acc k w) rest n₁ (Nat.le_refl _) hOKins hdrest
            refine ⟨f₂ + 1, acc', n', ?_, hOK'⟩
            rw [mergeEntries, if_neg h1, if_neg h2, hC]
            exact hE₂
    · intro acc inputs n hμ hacc hdom
      cases inputs with
      | nil => exact ⟨1, acc, n, rfl, hacc⟩
      | cons i rest =>
        rw [domInputs, List.all_cons, Bool.and_eq_true] at hdom
        obtain ⟨hdi, hdrest⟩ := hdom
        have hvz : vsizes (i :: rest) = vsize i + vsizes rest := rfl
        have hlen : (i :: rest : List Value).length = rest.length + 1 := rfl
        by_cases hs : skipInput i = true
        · have hb : esize acc + vsizes rest ≤ esize acc + vsizes (i :: rest) := by
            omega
          have hsq := sq_mono _ _ hb
          have hlt : (esize acc + vsizes rest) * (esize acc + vsizes rest)
              + vsizes rest + rest.length < N := by omega
          obtain ⟨f₂, acc', n', hI₂, hOK'⟩ :=
            (ih _ hlt).2.1 acc rest n (Nat.le_refl _) hacc
              (by rw [domInputs]; exact hdrest)
          refine ⟨f₂ + 1, acc', n', ?_, hOK'⟩
          rw [mergeInputs, if_pos hs]
          exact hI₂
        · have hs' : skipInput i = false := by
            cases hq : skipInput i with
            | false => rfl
            | true => exact absurd hq hs
          have hde : domKVs (entriesOf i) = true := by
            rw [domInput, hs'] at hdi
            simpa using hdi
          have he := esize_entriesOf_le_vsize i
          have hb : esize acc + esize (entriesOf i)
              ≤ esize acc + vsizes (i :: rest) := by omega
          have hsq := sq_mono _ _ hb
          have hlt : (esize acc + esize (entriesOf i))
                * (esize acc + esize (entriesOf i)) + esize (entriesOf i) < N := by
            omega
          obtain ⟨f₁, acc₁, n₁, hE₁, hOK₁⟩ :=
            (ih _ hlt).1 acc (entriesOf i) n (Nat.le_refl _) hacc hde
          have hsz := (merge_size f₁).2.2 _ _ _ _ _ hE₁
          have hb' : esize acc₁ + vsizes rest
              ≤ esize acc + vsizes (i :: rest) := by omega
          have hsq' := sq_mono _ _ hb'
          have hlt' : (esize acc₁ + vsizes rest) * (esize acc₁ + vsizes rest)
              + vsizes rest + rest.length < N := by omega
          obtain ⟨f₂, acc', n', hI₂, hOK'⟩ :=
            (ih _ hlt').2.1 acc₁ rest n₁ (Nat.le_refl _) hOK₁
              (by rw [domInputs]; exact hdrest)
          have hE₁' : mergeEntries (max f₁ f₂) acc (entriesOf i) n
              = EStep.ok acc₁ n₁ :=
            ((merge_mono f₁ (max f₁ f₂) (Nat.le_max_left f₁ f₂)).2.2
              acc (entriesOf i) n
              (by rw [hE₁]; intro hc; cases hc)).trans hE₁
          have hI₂' : mergeInputs (max f₁ f₂) acc₁ rest n₁
              = EStep.ok acc' n' :=
            ((merge_mono f₂ (max f₁ f₂) (Nat.le_max_right f₁ f₂)).2.1
              acc₁ rest n₁
              (by rw [hI₂]; intro hc; cases hc)).trans hI₂
          refine ⟨max f₁ f₂ + 1, acc', n', ?_, hOK'⟩
          rw [mergeInputs, if_neg hs, hE₁']
          exact hI₂'
    · intro inputs n hμ hdom
      have h0 : esize ([] : List (String × Value)) = 0 := rfl
      have hb : esize ([] : List (String × Value)) + vsizes inputs
          ≤ vsizes inputs := by omega
      have hsq := sq_mono _ _ hb
      have hlt : (esize ([] : List (String × Value)) + vsizes inputs)
            * (esize ([] : List (String × Value)) + vsizes inputs)
          + vsizes inputs + inputs.length < N := by omega
      obtain ⟨f₁, kvs, n₁, hI, hOK⟩ :=
        (ih _ hlt).2.1 [] inputs (n + 1) (Nat.le_refl _) rfl hdom
      refine ⟨f₁ + 1, Value.vObj n kvs, n₁, ?_, ?_⟩
      · rw [mergeProps, hI]
      · rw [mergedOK]
        exact hOK

/-- C7 counterexample: the core is not exception-free on every documented
input: a function value inside an array value reaches `structuredClone`,
which raises `DataCloneError` (modelled as the `err` outcome), so
`mergeProps({a: [function(){}]})` throws. -/
theorem mergeProps_throws_on_function_in_array :
    mergeProps 10 [Value.vObj 0 [("a", Value.vArr 1 [Value.vFn 2])]] 100
      = MRes.err := rfl

/-- C7 (amended): `mergeProps` is total on the clonable domain `domInputs`
(no function buried inside a value that is handed to `structuredClone`;
null, undefined and other skipped arguments are unrestricted): for some
fuel, and stably for every larger fuel, it returns an object and never an
error.  Outside this domain it can throw, as the counterexample shows. -/
theorem mergeProps_total_on_domain (inputs : List Value) (n : Nat)
    (hdom : domInputs inputs = true) :
    ∃ f v n', mergedOK v = true ∧
      ∀ g, f ≤ g → mergeProps g inputs n = MRes.ok v n' := by
  obtain ⟨f, v, n', hok, hinv⟩ :=
    (merge_total (vsizes inputs * vsizes inputs + vsizes inputs
      + inputs.length + 1)).2.2 inputs n (Nat.le_refl _) hdom
  refine ⟨f, v, n', hinv, ?_⟩
  intro g hg
  exact ((merge_mono f g hg).1 inputs n
    (by rw [hok]; intro hc; cases hc)).trans hok

/-- C7 witness: a concrete mixed argument list in the documented domain
(an object with a primitive entry, `null`, a skipped string, a skipped
array) on which the totality theorem applies. -/
theorem mergeProps_total_on_domain_witness :
    domInputs [Value.vObj 0 [("a", Value.vNum 1)], Value.vNull,
      Value.vStr "x", Value.vArr 1 [Value.vNum 2]] = true
    ∧ ∃ f v n', mergedOK v = true ∧ ∀ g, f ≤ g →
        mergeProps g [Value.vObj 0 [("a", Value.vNum 1)], Value.vNull,
          Value.vStr "x", Value.vArr 1 [Value.vNum 2]] 100 = MRes.ok v n' :=
  ⟨rfl, mergeProps_total_on_domain _ 100 rfl⟩

/-! ### Association-list and spread lemmas for props objects -/

lemma lookupP_cons_self (k : String) (v : PropVal) (l : List (String × PropVal)) :
    lookupP ((k, v) :: l) k = some v := by
  simp [lookupP]

lemma lookupP_cons_ne (k k' : String) (v : PropVal) (l : List (String × PropVal))
    (h : k' ≠ k) : lookupP ((k', v) :: l) k = lookupP l k := by
  rw [lookupP, List.find?_cons_of_neg _ (by simpa using h), lookupP]

lemma hasKeyP_cons_ne (k k' : String) (v : PropVal) (l : List (String × PropVal))
    (h : k' ≠ k) : hasKeyP ((k', v) :: l) k = hasKeyP l k := by
  rw [hasKeyP, List.find?_cons_of_neg _ (by simpa using h), hasKeyP]

lemma hasKeyP_cons_false (k k₀ : String) (v₀ : PropVal)
    (rest : List (String × PropVal))
    (h : hasKeyP ((k₀, v₀) :: rest) k = false) :
    k₀ ≠ k ∧ hasKeyP rest k = false := by
  by_cases hk : k₀ = k
  · subst hk
    rw [hasKeyP, List.find?_cons_of_pos _ (by simp)] at h
    simp at h
  · exact ⟨hk, by rwa [hasKeyP_cons_ne k k₀ v₀ rest hk] at h⟩

lemma lookupP_insertP_self (ps : List (String × PropVal)) (k : String)
    (v : PropVal) : lookupP (insertP ps k v) k = some v := by
  induction ps with
  | nil => simp [insertP, lookupP]
  | cons p rest ih =>
    obtain ⟨k', v'⟩ := p
    by_cases h : k' = k
    · subst h
      rw [insertP, if_pos (by simp)]
      exact lookupP_cons_self k' v rest
    · rw [insertP, if_neg (by simpa using h), lookupP_cons_ne k k' v' _ h]
      exact ih

lemma lookupP_insertP_ne (ps : List (String × PropVal)) (k k' : String)
    (v : PropVal) (h : k' ≠ k) :
    lookupP (insertP ps k' v) k = lookupP ps k := by
  induction ps with
  | nil =>
    rw [insertP]
    rw [lookupP_cons_ne k k' v [] h]
  | cons p rest ih =>
    obtain ⟨k₀, v₀⟩ := p
    by_cases h0 : k₀ = k'
    · rw [insertP, if_pos (by simp [h0])]
      rw [lookupP_cons_ne k k' v rest h,
        lookupP_cons_ne k k₀ v₀ rest (by rw [h0]; exact h)]
    · rw [insertP, if_neg (by simpa using h0)]
      by_cases hk : k₀ = k
      · subst hk
        rw [lookupP_cons_self, lookupP_cons_self]
      · rw [lookupP_cons_ne k k₀ v₀ _ hk, lookupP_cons_ne k k₀ v₀ rest hk]
        exact ih

lemma lookupP_spreadP_absent : ∀ (add base : List (String × PropVal)) (k : String),
    hasKeyP add k = false →
    lookupP (spreadP base add) k = lookupP base k := by
  intro add
  induction add with
  | nil =>
    intro base k _
    rfl
  | cons p rest ih =>
    intro base k h
    obtain ⟨k₀, v₀⟩ := p
    obtain ⟨hne, hrest⟩ := hasKeyP_cons_false k k₀ v₀ rest h
    rw [show spreadP base ((k₀, v₀) :: rest)
        = spreadP (insertP base k₀ v₀) rest from rfl]
    rw [ih (insertP base k₀ v₀) k hrest]
    exact lookupP_insertP_ne base k k₀ v₀ hne

lemma lookupP_spreadP_present : ∀ (add base : List (String × PropVal)) (k : String),
    wfProps add = true → hasKeyP add k = true →
    lookupP (spreadP base add) k = lookupP add k := by
  intro add
  induction add with
  | nil =>
    intro base k _ h
    cases h
  | cons p rest ih =>
    intro base k hwf h
    obtain ⟨k₀, v₀⟩ := p
    rw [wfProps, Bool.and_eq_true] at hwf
    obtain ⟨hnk, hwfr⟩ := hwf
    rw [show spreadP base ((k₀, v₀) :: rest)
        = spreadP (insertP base k₀ v₀) rest from rfl]
    by_cases hk : k₀ = k
    · subst hk
      have hrf : hasKeyP rest k₀ = false := by simpa using hnk
      rw [lookupP_spreadP_absent rest (insertP base k₀ v₀) k₀ hrf,
        lookupP_insertP_self, lookupP_cons_self]
    · rw [hasKeyP_cons_ne k k₀ v₀ rest hk] at h
      rw [lookupP_cons_ne k k₀ v₀ rest hk]
      exact ih (insertP base k₀ v₀) k hwfr h

lemma mergedSlotProps_none (name : String) (props : SlotsProps)
    (options : SlotOptions) (wrapped : List (String × PropVal))
    (h : oLookupP props.slotProps name = none) :
    mergedSlotProps name props options wrapped
      = spreadP wrapped options.extraProps := by
  rw [mergedSlotProps, h]

lemma mergedSlotProps_some (name : String) (props : SlotsProps)
    (options : SlotOptions) (wrapped entry : List (String × PropVal))
    (h : oLookupP props.slotProps name = some entry) :
    mergedSlotProps name props options wrapped
      = spreadP (spreadP wrapped entry) options.extraProps := by
  rw [mergedSlotProps, h]

/-- C2: Shape A prop merging precedence: the merged props are
`{...wrappedProps, ...slotProps?.[name], ...extraProps}`, so on a key
conflict the options' extra fixed props win, then the slot-prop-override
entry, then the call-time props; in particular call-time
`{id: "default-id"}` with slotProps `{id: "props-id"}` and options
`{id: "custom-id"}` renders with final id `"custom-id"`. -/
theorem useSlot_options_precedence :
    (∀ (name : String) (props : SlotsProps) (options : SlotOptions)
        (wrapped : List (String × PropVal)) (k : String),
      wfProps options.extraProps = true →
      hasKeyP options.extraProps k = true →
      lookupP (mergedSlotProps name props options wrapped) k
        = lookupP options.extraProps k)
    ∧ (∀ (name : String) (props : SlotsProps) (options : SlotOptions)
        (wrapped : List (String × PropVal)) (k : String)
        (entry : List (String × PropVal)),
      oLookupP props.slotProps name = some entry →
      wfProps entry = true → hasKeyP entry k = true →
      hasKeyP options.extraProps k = false →
      lookupP (mergedSlotProps name props options wrapped) k = lookupP entry k)
    ∧ (∀ (name : String) (props : SlotsProps) (options : SlotOptions)
        (wrapped : List (String × PropVal)) (k : String),
      hasKeyP options.extraProps k = false →
      (∀ entry, oLookupP props.slotProps name = some entry →
        hasKeyP entry k = false) →
      lookupP (mergedSlotProps name props options wrapped) k
        = lookupP wrapped k)
    ∧ useSlot "header"
        ⟨none, some [("header", [("id", PropVal.str "props-id")])]⟩
        ⟨some (.comp 7), [("id", PropVal.str "custom-id")]⟩
        [("id", PropVal.str "default-id")]
      = RenderResult.element 7 [("id", PropVal.str "custom-id")] := by
  refine ⟨?_, ?_, ?_, rfl⟩
  · intro name props options wrapped k hwf hk
    cases hsp : oLookupP props.slotProps name with
    | none =>
      rw [mergedSlotProps_none name props options wrapped hsp]
      exact lookupP_spreadP_present _ _ _ hwf hk
    | some entry =>
      rw [mergedSlotProps_some name props options wrapped entry hsp]
      exact lookupP_spreadP_present _ _ _ hwf hk
  · intro name props options wrapped k entry hsp hwf hk hex
    rw [mergedSlotProps_some name props options wrapped entry hsp,
      lookupP_spreadP_absent _ _ _ hex]
    exact lookupP_spreadP_present _ _ _ hwf hk
  · intro name props options wrapped k hex hent
    cases hsp : oLookupP props.slotProps name with
    | none =>
      rw [mergedSlotProps_none name props options wrapped hsp]
      exact lookupP_spreadP_absent _ _ _ hex
    | some entry =>
      rw [mergedSlotProps_some name props options wrapped entry hsp,
        lookupP_spreadP_absent _ _ _ hex]
      exact lookupP_spreadP_absent _ _ _ (hent entry hsp)

/-- C2 witness: with empty slot props and options extras
`{id: "custom-id"}`, the merged props read `id` from the extras. -/
theorem useSlot_options_precedence_witness :
    wfProps [("id", PropVal.str "custom-id")] = true
    ∧ hasKeyP [("id", PropVal.str "custom-id")] "id" = true
    ∧ lookupP (mergedSlotProps "s" ⟨none, none⟩
        ⟨none, [("id", PropVal.str "custom-id")]⟩
        [("id", PropVal.str "default-id")]) "id"
      = lookupP [("id", PropVal.str "custom-id")] "id" :=
  ⟨rfl, rfl, useSlot_options_precedence.1 "s" ⟨none, none⟩
    ⟨none, [("id", PropVal.str "custom-id")]⟩
    [("id", PropVal.str "default-id")] "id" rfl rfl⟩

/-- C1 counterexample: with no override and no default, the resolved
renderable is `SlotFragment`, which renders its `children` — invoking the
callback with `{children: "Test Content"}` renders that content, not an
empty result. -/
theorem useSlot_no_override_renders_children :
    useSlot "header" ⟨none, none⟩ ⟨none, []⟩
        [("children", PropVal.str "Test Content")]
      = RenderResult.fragment (some (PropVal.str "Test Content"))
    ∧ rendersNothing (useSlot "header" ⟨none, none⟩ ⟨none, []⟩
        [("children", PropVal.str "Test Content")]) = false :=
  ⟨rfl, rfl⟩

/-- C1 (amended): Shape A slot resolution follows the fallback chain
override → options default → `SlotFragment`; with neither override nor
default the returned callback renders a pass-through fragment containing
exactly the `children` of the merged props, which is an empty render
result precisely when those merged props carry no `children`. -/
theorem useSlot_fallback_chain (name : String) (props : SlotsProps)
    (options : SlotOptions) :
    (∀ r, oLookupR props.slots name = some r →
      resolveSlot name props options = r)
    ∧ (∀ d, oLookupR props.slots name = none → options.slot = some d →
      resolveSlot name props options = d)
    ∧ (oLookupR props.slots name = none → options.slot = none →
      resolveSlot name props options = Renderable.slotFragment
      ∧ (∀ wrapped, useSlot name props options wrapped
          = RenderResult.fragment
              (lookupP (mergedSlotProps name props options wrapped) "children"))
      ∧ (∀ wrapped,
          lookupP (mergedSlotProps name props options wrapped) "children"
            = none →
          rendersNothing (useSlot name props options wrapped) = true)) := by
  refine ⟨?_, ?_, ?_⟩
  · intro r h
    rw [resolveSlot, h]
  · intro d h1 h2
    rw [resolveSlot, h1, h2]
  · intro h1 h2
    have hres : resolveSlot name props options = Renderable.slotFragment := by
      rw [resolveSlot, h1, h2]
    refine ⟨hres, ?_, ?_⟩
    · intro wrapped
      rw [useSlot, hres]
      rfl
    · intro wrapped hch
      rw [useSlot, hres]
      show rendersNothing
        (SlotFragment (mergedSlotProps name props options wrapped)) = true
      rw [SlotFragment, hch]
      rfl

/-- C1 witness: a slot with no override and no default resolves to
`SlotFragment` and, invoked with no props, renders nothing. -/
theorem useSlot_fallback_chain_witness :
    oLookupR (SlotsProps.mk none none).slots "header" = none
    ∧ (SlotOptions.mk none []).slot = none
    ∧ resolveSlot "header" ⟨none, none⟩ ⟨none, []⟩ = Renderable.slotFragment
    ∧ rendersNothing (useSlot "header" ⟨none, none⟩ ⟨none, []⟩ []) = true := by
  obtain ⟨h1, h2, h3⟩ :=
    (useSlot_fallback_chain "header" ⟨none, none⟩ ⟨none, []⟩).2.2 rfl rfl
  exact ⟨rfl, rfl, h1, h3 [] rfl⟩

/-- C10: the Shape B resolver checks overrides by truthiness, not key
presence: a falsy `slots[name]` entry (undefined, null, false) falls
through to the default component, and for the reserved name `"root"` a
falsy `component` prop falls through to the `slots[name]` check. -/
theorem resolveComponentElement_truthiness :
    (∀ (name : String) (root : BOverride) (slots : List (String × BOverride))
        (d : BOverride),
      truthyB (blookup slots name) = false →
      (name = "root" → truthyB root = false) →
      resolveComponentElement name root slots d = d)
    ∧ (∀ (root : BOverride) (slots : List (String × BOverride)) (d : BOverride),
      truthyB root = false → truthyB (blookup slots "root") = true →
      resolveComponentElement "root" root slots d = blookup slots "root")
    ∧ (∀ (name : String) (root : BOverride) (slots : List (String × BOverride))
        (d : BOverride),
      name ≠ "root" → truthyB (blookup slots name) = true →
      resolveComponentElement name root slots d = blookup slots name)
    ∧ resolveComponentElement "header" BOverride.vUndefined
        [("header", BOverride.vFalse)] (BOverride.comp 5) = BOverride.comp 5
    ∧ resolveComponentElement "root" BOverride.vNull
        [("root", BOverride.comp 3)] (BOverride.comp 5) = BOverride.comp 3
    ∧ resolveComponentElement "root" BOverride.vFalse
        [("root", BOverride.vUndefined)] (BOverride.comp 5) = BOverride.comp 5 := by
  refine ⟨?_, ?_, ?_, rfl, rfl, rfl⟩
  · intro name root slots d h1 h2
    have hcond : (name == "root" && truthyB root) = false := by
      cases hb : (name == "root") with
      | false => rfl
      | true =>
        have hr : truthyB root = false := h2 (by simpa using hb)
        rw [hr]
        rfl
    rw [resolveComponentElement, if_neg (by simp [hcond]),
      if_neg (by simp [h1])]
  · intro root slots d h1 h2
    rw [resolveComponentElement, if_neg (by simp [h1]), if_pos h2]
  · intro name root slots d hn h2
    rw [resolveComponentElement, if_neg (by simp [hn]), if_pos h2]

/-- C10 witness: an own-present but `null` entry for a non-root slot is
skipped even though a truthy `component` prop exists for `"root"`. -/
theorem resolveComponentElement_truthiness_witness :
    truthyB (blookup [("b", BOverride.vNull)] "b") = false
    ∧ resolveComponentElement "b" (BOverride.comp 9) [("b", BOverride.vNull)]
        (BOverride.comp 4) = BOverride.comp 4 :=
  ⟨rfl, resolveComponentElement_truthiness.1 "b" (BOverride.comp 9)
    [("b", BOverride.vNull)] (BOverride.comp 4) rfl
    (fun h => absurd h (by decide))⟩

end ReactSlottable
